import Mathlib

/-!
Verification development for the stem-cell patterning simulator
(`Model/functions.py` and `Model/backend.py`).

The per-cell state is a structure of arrays indexed by a dense cell index
`i < number_cells`.  Spatial quantities are embedded over an arbitrary
linear ordered field with a floor (instantiated at `ℚ` for the searchable,
fully computable layers and at `ℝ` for the JKR contact-mechanics layer,
whose constants involve `π` and fractional powers).

Layers, in file order:
* the uniform-grid spatial binning (`assign_bins` / `assign_bins_jit`);
* the fixed-radius neighbor search with its per-cell edge slab and
  capacity-doubling retry protocol (`get_neighbors_cpu`, `check_neighbors`);
* the diffusion-point rounding and gradient access (`get_concentration`,
  `adjust_morphogens` in `nearest` mode);
* the finite-dynamical-system pathway update (`cell_pathway`);
* the contact-induced differentiation pass (`cell_diff_surround`);
* the diffusion kernel (`update_diffusion_jit`);
* the JKR contact mechanics (`jkr_neighbors_cpu`, `get_forces_cpu`,
  `apply_forces_cpu`, `handle_movement`) and the bulk add/remove protocol
  (`update_queue`).
-/

namespace StemCell

/-- A point of 3-space, as the source's length-3 coordinate arrays. -/
abbrev Vec3 (α : Type) : Type := Fin 3 → α

/-- A triple of bin indices, one per axis (`bin_locations[i]` in the source). -/
abbrev Tri : Type := ℤ × ℤ × ℤ

/-- Componentwise sum of bin-index triples (the `x + i`, `y + j`, `z + k`
bin lookups of the search kernels). -/
def triAdd (a b : Tri) : Tri := (a.1 + b.1, a.2.1 + b.2.1, a.2.2 + b.2.2)

section Search

variable {α : Type} [LinearOrderedField α]

/-- Squared Euclidean distance between two cell locations.  The source
compares `np.linalg.norm(locations[current] - locations[focus])`, i.e. the
square root of this quantity, against a nonnegative radius; the comparison
`sqDist u v ≤ d ^ 2` is that same test (see `sqrt_sqDist_le_iff`). -/
def sqDist (u v : Vec3 α) : α :=
  (u 0 - v 0) ^ 2 + (u 1 - v 1) ^ 2 + (u 2 - v 2) ^ 2

theorem sqDist_nonneg (u v : Vec3 α) : 0 ≤ sqDist u v := by
  have h0 := sq_nonneg (u 0 - v 0)
  have h1 := sq_nonneg (u 1 - v 1)
  have h2 := sq_nonneg (u 2 - v 2)
  unfold sqDist; linarith

/-- For a rational-valued embedding, `sqDist u v ≤ d ^ 2` is exactly the
source's Euclidean-norm comparison `‖u - v‖ ≤ d` (radii are nonnegative). -/
theorem sqrt_sqDist_le_iff (u v : Vec3 ℚ) (d : ℚ) (hd : 0 ≤ d) :
    Real.sqrt ((sqDist u v : ℚ) : ℝ) ≤ (d : ℝ) ↔ sqDist u v ≤ d ^ 2 := by
  rw [Real.sqrt_le_iff]
  constructor
  · rintro ⟨-, h⟩
    exact_mod_cast h
  · intro h
    exact ⟨by exact_mod_cast hd, by exact_mod_cast h⟩

variable [FloorRing α]

/-- Bin index of a location: `np.floor_divide(location, distance) + 1`
per axis (`assign_bins`, the `+ 1` is the boundary-padding offset). -/
def binIdx (d : α) (v : Vec3 α) : Tri :=
  (⌊v 0 / d⌋ + 1, ⌊v 1 / d⌋ + 1, ⌊v 2 / d⌋ + 1)

/-- The contents of bin `b` after `assign_bins_jit`: the loop appends the
cells in increasing index order, so bin `b` holds exactly the indices
`i < n` whose `binIdx` is `b`, in increasing order. -/
def idealBins (n : ℕ) (loc : ℕ → Vec3 α) (d : α) (b : Tri) : List ℕ :=
  (List.range n).filter (fun i => decide (binIdx d (loc i) = b))

theorem mem_idealBins {n : ℕ} {loc : ℕ → Vec3 α} {d : α} {b : Tri} {i : ℕ} :
    i ∈ idealBins n loc d b ↔ i < n ∧ binIdx d (loc i) = b := by
  simp [idealBins, List.mem_filter, List.mem_range]

theorem nodup_idealBins (n : ℕ) (loc : ℕ → Vec3 α) (d : α) (b : Tri) :
    (idealBins n loc d b).Nodup :=
  (List.nodup_range n).filter _

/-- The 27 bin offsets scanned by the search kernels, in source loop order
(`for i in range(-1, 2): for j ...: for k ...`). -/
def offsets : List Tri :=
  ([-1, 0, 1] : List ℤ).flatMap (fun i =>
    ([-1, 0, 1] : List ℤ).flatMap (fun j =>
      ([-1, 0, 1] : List ℤ).map (fun k => (i, j, k))))

theorem nodup_offsets : offsets.Nodup := by decide

theorem mem_offsets_of_bounds {o : Tri}
    (h1 : -1 ≤ o.1 ∧ o.1 ≤ 1) (h2 : -1 ≤ o.2.1 ∧ o.2.1 ≤ 1)
    (h3 : -1 ≤ o.2.2 ∧ o.2.2 ≤ 1) : o ∈ offsets := by
  obtain ⟨a, b, c⟩ := o
  have ha1 : -1 ≤ a := h1.1
  have ha2 : a ≤ 1 := h1.2
  have hb1 : -1 ≤ b := h2.1
  have hb2 : b ≤ 1 := h2.2
  have hc1 : -1 ≤ c := h3.1
  have hc2 : c ≤ 1 := h3.2
  interval_cases a <;> interval_cases b <;> interval_cases c <;> decide

theorem triAdd_left_cancel {b o o' : Tri} (h : triAdd b o = triAdd b o') : o = o' := by
  obtain ⟨b1, b2, b3⟩ := b; obtain ⟨x1, x2, x3⟩ := o; obtain ⟨y1, y2, y3⟩ := o'
  simp only [triAdd, Prod.mk.injEq] at h ⊢
  omega

/-- Candidate neighbors of a focus cell: the concatenation of the 27 bins
surrounding (and including) the focus cell's bin, in scan order. -/
def searchCandidates (bins : Tri → List ℕ) (b : Tri) : List ℕ :=
  offsets.flatMap (fun o => bins (triAdd b o))

theorem mem_searchCandidates {bins : Tri → List ℕ} {b : Tri} {c : ℕ} :
    c ∈ searchCandidates bins b ↔ ∃ o ∈ offsets, c ∈ bins (triAdd b o) := by
  simp [searchCandidates, List.mem_flatMap]

theorem nodup_searchCandidates (n : ℕ) (loc : ℕ → Vec3 α) (d : α) (b : Tri) :
    (searchCandidates (idealBins n loc d) b).Nodup := by
  rw [searchCandidates, List.nodup_flatMap]
  refine ⟨fun o _ => nodup_idealBins n loc d _, ?_⟩
  refine nodup_offsets.imp ?_
  intro o o' hne
  intro x hx hx'
  rcases mem_idealBins.mp hx with ⟨-, h⟩
  rcases mem_idealBins.mp hx' with ⟨-, h'⟩
  exact hne (triAdd_left_cancel (h.symm.trans h'))

variable (P : ℕ → ℕ → Prop) [∀ i j : ℕ, Decidable (P i j)]

/-- The candidates of a focus cell that pass the search predicate: the
source keeps `current` when `P focus current and focus < current`
(the `focus < current` rule prevents double counting). -/
def focusHits (bins : Tri → List ℕ) (d : α) (loc : ℕ → Vec3 α) (focus : ℕ) : List ℕ :=
  (searchCandidates bins (binIdx d (loc focus))).filter
    (fun cur => decide (P focus cur) && decide (focus < cur))

/-- The edges discovered for one focus cell, in discovery order.  Each hit
`current` yields the directed pair `(focus, current)` written to the
focus cell's slab of the edge holder. -/
def focusEdges (bins : Tri → List ℕ) (d : α) (loc : ℕ → Vec3 α) (focus : ℕ) :
    List (ℕ × ℕ) :=
  (focusHits P bins d loc focus).map (fun cur => (focus, cur))

/-- The number of edges counted for a focus cell (`edge_count[focus]`): the
kernel increments the count for every hit, whether or not the slab had
room to record it. -/
def edgeCountOf (bins : Tri → List ℕ) (d : α) (loc : ℕ → Vec3 α) (focus : ℕ) : ℕ :=
  (focusHits P bins d loc focus).length

/-- The edges a focus cell records in its slab of `max_neighbors` slots:
only the first `cap` hits are written (`if cell_edge_count < max_neighbors`). -/
def slabEdges (bins : Tri → List ℕ) (d : α) (loc : ℕ → Vec3 α) (cap : ℕ)
    (focus : ℕ) : List (ℕ × ℕ) :=
  (focusEdges P bins d loc focus).take cap

/-- One capacity-bounded pass of the search kernel, compacted: the edge
holder rows flagged by `if_edge`, in slab order (`edge_holder[if_edge]`). -/
def passEdges (n : ℕ) (bins : Tri → List ℕ) (d : α) (loc : ℕ → Vec3 α)
    (cap : ℕ) : List (ℕ × ℕ) :=
  (List.range n).flatMap (slabEdges P bins d loc cap)

/-- The edge list of a pass whose slab capacity sufficed for every cell. -/
def fullEdges (n : ℕ) (bins : Tri → List ℕ) (d : α) (loc : ℕ → Vec3 α) :
    List (ℕ × ℕ) :=
  (List.range n).flatMap (focusEdges P bins d loc)

/-- The largest per-cell edge count of a pass (`np.amax(edge_count)`,
with the convention that an empty population has maximum 0). -/
def maxEdgeCount (n : ℕ) (bins : Tri → List ℕ) (d : α) (loc : ℕ → Vec3 α) : ℕ :=
  ((List.range n).map (edgeCountOf P bins d loc)).foldr max 0

/-- The capacity-doubling retry loop of `check_neighbors` / `jkr_neighbors`:
run a pass at capacity `cap`; if every per-cell count fits, keep the
compacted output, otherwise double the observed maximum count and retry.
`fuel` bounds the number of iterations of the source's `while True`. -/
def edgeLoop (n : ℕ) (bins : Tri → List ℕ) (d : α) (loc : ℕ → Vec3 α) :
    ℕ → ℕ → Option (List (ℕ × ℕ))
  | 0, _ => none
  | fuel + 1, cap =>
    if maxEdgeCount P n bins d loc ≤ cap then
      some (passEdges P n bins d loc cap)
    else
      edgeLoop n bins d loc fuel (maxEdgeCount P n bins d loc * 2)

theorem mem_focusEdges {bins : Tri → List ℕ} {d : α} {loc : ℕ → Vec3 α}
    {focus : ℕ} {p : ℕ × ℕ} :
    p ∈ focusEdges P bins d loc focus ↔
      p.1 = focus ∧ p.2 ∈ searchCandidates bins (binIdx d (loc focus)) ∧
        P focus p.2 ∧ focus < p.2 := by
  obtain ⟨a, b⟩ := p
  simp only [focusEdges, focusHits, List.mem_map, List.mem_filter, Bool.and_eq_true,
    decide_eq_true_eq, Prod.mk.injEq]
  constructor
  · rintro ⟨c, ⟨hc, hP, hlt⟩, rfl, rfl⟩
    exact ⟨rfl, hc, hP, hlt⟩
  · rintro ⟨rfl, hc, hP, hlt⟩
    exact ⟨b, ⟨hc, hP, hlt⟩, rfl, rfl⟩

/-- Soundness of the search: every emitted edge `(i, j)` has `i < j`, both
endpoints below the population size, and satisfies the predicate. -/
theorem mem_fullEdges_elim {n : ℕ} {loc : ℕ → Vec3 α} {d : α} {p : ℕ × ℕ}
    (h : p ∈ fullEdges P n (idealBins n loc d) d loc) :
    p.1 < p.2 ∧ p.2 < n ∧ P p.1 p.2 := by
  rcases List.mem_flatMap.mp h with ⟨focus, -, hp⟩
  rcases (mem_focusEdges P).mp hp with ⟨h1, hc, hP, hlt⟩
  rcases mem_searchCandidates.mp hc with ⟨o, -, hb⟩
  rcases mem_idealBins.mp hb with ⟨hn, -⟩
  subst h1
  exact ⟨hlt, hn, hP⟩

/-- If two locations are within distance `d` of each other then their bin
indices differ by at most one on the given axis: the key property of the
uniform grid with cell side equal to the search radius. -/
theorem floor_step {x y d : α} (hd : 0 < d) (h : |x - y| ≤ d) :
    -1 ≤ (⌊y / d⌋ + 1) - (⌊x / d⌋ + 1) ∧ (⌊y / d⌋ + 1) - (⌊x / d⌋ + 1) ≤ 1 := by
  rcases abs_le.mp h with ⟨hlo, hhi⟩
  have hd' : d ≠ 0 := ne_of_gt hd
  have hy_le : y / d ≤ x / d + 1 := by
    have step : y / d ≤ (x + d) / d := by gcongr; linarith
    have : (x + d) / d = x / d + 1 := by field_simp
    linarith
  have hx_le : x / d ≤ y / d + 1 := by
    have step : x / d ≤ (y + d) / d := by gcongr; linarith
    have : (y + d) / d = y / d + 1 := by field_simp
    linarith
  have h1 : ⌊y / d⌋ ≤ ⌊x / d⌋ + 1 := by
    have := Int.floor_le_floor hy_le
    rwa [Int.floor_add_one] at this
  have h2 : ⌊x / d⌋ ≤ ⌊y / d⌋ + 1 := by
    have := Int.floor_le_floor hx_le
    rwa [Int.floor_add_one] at this
  omega

/-- Completeness of the search: a pair `i < j < n` whose locations lie
within distance `d` (so that `j` is necessarily in one of the 27 bins
scanned from `i`) and which satisfies the predicate is emitted. -/
theorem mem_fullEdges_of {n : ℕ} {loc : ℕ → Vec3 α} {d : α} {i j : ℕ}
    (hd : 0 < d) (hij : i < j) (hjn : j < n) (hP : P i j)
    (hsq : sqDist (loc i) (loc j) ≤ d ^ 2) :
    (i, j) ∈ fullEdges P n (idealBins n loc d) d loc := by
  have hs0 := sq_nonneg (loc i 0 - loc j 0)
  have hs1 := sq_nonneg (loc i 1 - loc j 1)
  have hs2 := sq_nonneg (loc i 2 - loc j 2)
  unfold sqDist at hsq
  have habs0 : |loc i 0 - loc j 0| ≤ d := by
    rw [abs_le]; constructor <;> nlinarith
  have habs1 : |loc i 1 - loc j 1| ≤ d := by
    rw [abs_le]; constructor <;> nlinarith
  have habs2 : |loc i 2 - loc j 2| ≤ d := by
    rw [abs_le]; constructor <;> nlinarith
  refine List.mem_flatMap.mpr ⟨i, List.mem_range.mpr (lt_trans hij hjn), ?_⟩
  refine (mem_focusEdges P).mpr ⟨rfl, ?_, hP, hij⟩
  have h0 := floor_step hd habs0
  have h1 := floor_step hd habs1
  have h2 := floor_step hd habs2
  set o : Tri := ((⌊loc j 0 / d⌋ + 1) - (⌊loc i 0 / d⌋ + 1),
                  (⌊loc j 1 / d⌋ + 1) - (⌊loc i 1 / d⌋ + 1),
                  (⌊loc j 2 / d⌋ + 1) - (⌊loc i 2 / d⌋ + 1)) with ho
  refine mem_searchCandidates.mpr ⟨o, mem_offsets_of_bounds h0 h1 h2, ?_⟩
  refine mem_idealBins.mpr ⟨hjn, ?_⟩
  simp only [binIdx, triAdd, ho, Prod.mk.injEq]
  omega

/-- The complete search output contains no duplicate entries. -/
theorem nodup_fullEdges (n : ℕ) (loc : ℕ → Vec3 α) (d : α) :
    (fullEdges P n (idealBins n loc d) d loc).Nodup := by
  rw [fullEdges, List.nodup_flatMap]
  constructor
  · intro focus _
    refine List.Nodup.map ?_ (((nodup_searchCandidates n loc d _).filter _))
    intro a b hab
    exact congrArg Prod.snd hab
  · refine (List.nodup_range n).imp ?_
    intro f g hfg
    intro p hp hp'
    rcases (mem_focusEdges P).mp hp with ⟨h1, -, -, -⟩
    rcases (mem_focusEdges P).mp hp' with ⟨h2, -, -, -⟩
    exact hfg (h1.symm.trans h2)

theorem length_focusEdges (bins : Tri → List ℕ) (d : α) (loc : ℕ → Vec3 α)
    (focus : ℕ) :
    (focusEdges P bins d loc focus).length = edgeCountOf P bins d loc focus := by
  simp [focusEdges, edgeCountOf, List.length_map]

/-- When the slab capacity covers a cell's edge count, the slab holds all
of that cell's edges. -/
theorem slabEdges_eq_focusEdges {bins : Tri → List ℕ} {d : α} {loc : ℕ → Vec3 α}
    {cap focus : ℕ} (h : edgeCountOf P bins d loc focus ≤ cap) :
    slabEdges P bins d loc cap focus = focusEdges P bins d loc focus := by
  apply List.take_of_length_le
  rw [length_focusEdges]
  exact h

theorem le_foldr_max {x : ℕ} : ∀ {l : List ℕ}, x ∈ l → x ≤ l.foldr max 0
  | a :: l, h => by
    rcases List.mem_cons.mp h with rfl | h
    · exact le_max_left _ _
    · exact le_trans (le_foldr_max h) (le_max_right _ _)

theorem edgeCountOf_le_maxEdgeCount {n : ℕ} {bins : Tri → List ℕ} {d : α}
    {loc : ℕ → Vec3 α} {focus : ℕ} (h : focus < n) :
    edgeCountOf P bins d loc focus ≤ maxEdgeCount P n bins d loc :=
  le_foldr_max (List.mem_map_of_mem _ (List.mem_range.mpr h))

/-- A cell accumulates at most `n` edges: its candidate list (over the
exact bins) has no duplicates and only holds indices below `n`. -/
theorem edgeCountOf_le_population (n : ℕ) (loc : ℕ → Vec3 α) (d : α) (focus : ℕ) :
    edgeCountOf P (idealBins n loc d) d loc focus ≤ n := by
  unfold edgeCountOf
  have hnd : (focusHits P (idealBins n loc d) d loc focus).Nodup :=
    (nodup_searchCandidates n loc d _).filter _
  have hsub : focusHits P (idealBins n loc d) d loc focus ⊆ List.range n := by
    intro x hx
    rcases List.mem_filter.mp hx with ⟨hc, -⟩
    rcases mem_searchCandidates.mp hc with ⟨o, -, hb⟩
    exact List.mem_range.mpr (mem_idealBins.mp hb).1
  have h1 : (focusHits P (idealBins n loc d) d loc focus).length =
      (focusHits P (idealBins n loc d) d loc focus).toFinset.card :=
    (List.toFinset_card_of_nodup hnd).symm
  have h2 : (focusHits P (idealBins n loc d) d loc focus).toFinset ⊆ Finset.range n := by
    intro x hx
    exact Finset.mem_range.mpr (List.mem_range.mp (hsub (List.mem_toFinset.mp hx)))
  have h3 := Finset.card_le_card h2
  simpa [h1] using h3

/-- A pass run with capacity at least every per-cell count compacts to the
complete edge list. -/
theorem passEdges_eq_fullEdges {n : ℕ} {bins : Tri → List ℕ} {d : α}
    {loc : ℕ → Vec3 α} {cap : ℕ}
    (h : ∀ focus < n, edgeCountOf P bins d loc focus ≤ cap) :
    passEdges P n bins d loc cap = fullEdges P n bins d loc := by
  unfold passEdges fullEdges
  rw [List.flatMap_def, List.flatMap_def]
  congr 1
  apply List.map_congr_left
  intro focus hf
  exact slabEdges_eq_focusEdges P (h focus (List.mem_range.mp hf))

/-- The retry loop terminates within two passes and returns the complete
edge list: if the initial capacity falls short, the next pass runs with
twice the true maximum count, which suffices. -/
theorem edgeLoop_eq_fullEdges {n : ℕ} {bins : Tri → List ℕ} {d : α}
    {loc : ℕ → Vec3 α} {fuel cap : ℕ} (hfuel : 2 ≤ fuel) :
    edgeLoop P n bins d loc fuel cap = some (fullEdges P n bins d loc) := by
  obtain ⟨f, rfl⟩ : ∃ f, fuel = f + 2 := ⟨fuel - 2, by omega⟩
  rw [edgeLoop]
  by_cases hcap : maxEdgeCount P n bins d loc ≤ cap
  · rw [if_pos hcap]
    exact congrArg some (passEdges_eq_fullEdges P fun focus hf =>
      le_trans (edgeCountOf_le_maxEdgeCount P hf) hcap)
  · rw [if_neg hcap, edgeLoop, if_pos (by omega)]
    exact congrArg some (passEdges_eq_fullEdges P fun focus hf =>
      le_trans (edgeCountOf_le_maxEdgeCount P hf) (by omega))

/-- A bin array built with per-bin slot capacity `M` (one attempt of
`assign_bins`): a bin retains only the cells that fit in its `M` slots.
The occupancy counters `bins_help` are exact regardless of capacity. -/
def boundBins (n : ℕ) (loc : ℕ → Vec3 α) (d : α) (M : ℕ) (b : Tri) : List ℕ :=
  (idealBins n loc d b).take M

/-- The maximum bin occupancy, `np.amax(bins_help)` (0 for an empty
population: every bin then counts zero cells). -/
def maxBinCount (n : ℕ) (loc : ℕ → Vec3 α) (d : α) : ℕ :=
  ((List.range n).map (fun i => (idealBins n loc d (binIdx d (loc i))).length)).foldr max 0

/-- The capacity-doubling retry loop of `assign_bins`: bin with capacity
`M`; if some bin overflowed, double the observed maximum occupancy and
rebin.  Returns the bins and the final capacity (remembered across steps). -/
def binLoop (n : ℕ) (loc : ℕ → Vec3 α) (d : α) : ℕ → ℕ → Option ((Tri → List ℕ) × ℕ)
  | 0, _ => none
  | fuel + 1, M =>
    if maxBinCount n loc d ≤ M then some (boundBins n loc d M, M)
    else binLoop n loc d fuel (maxBinCount n loc d * 2)

theorem boundBins_eq_idealBins {n : ℕ} {loc : ℕ → Vec3 α} {d : α} {M : ℕ}
    (h : maxBinCount n loc d ≤ M) : boundBins n loc d M = idealBins n loc d := by
  funext b
  unfold boundBins
  by_cases hb : idealBins n loc d b = []
  · rw [hb, List.take_nil]
  · obtain ⟨i, hi⟩ := List.exists_mem_of_ne_nil _ hb
    rcases mem_idealBins.mp hi with ⟨hin, hbi⟩
    apply List.take_of_length_le
    have hmem : (idealBins n loc d b).length ∈
        (List.range n).map (fun i => (idealBins n loc d (binIdx d (loc i))).length) := by
      refine List.mem_map.mpr ⟨i, List.mem_range.mpr hin, ?_⟩
      rw [hbi]
    exact le_trans (le_foldr_max hmem) h

theorem binLoop_eq_idealBins {n : ℕ} {loc : ℕ → Vec3 α} {d : α} {fuel M : ℕ}
    (hfuel : 2 ≤ fuel) :
    ∃ M', binLoop n loc d fuel M = some (idealBins n loc d, M') := by
  obtain ⟨f, rfl⟩ : ∃ f, fuel = f + 2 := ⟨fuel - 2, by omega⟩
  rw [binLoop]
  by_cases hM : maxBinCount n loc d ≤ M
  · exact ⟨M, by rw [if_pos hM, boundBins_eq_idealBins hM]⟩
  · rw [if_neg hM, binLoop, if_pos (by omega)]
    exact ⟨_, by rw [boundBins_eq_idealBins (by omega)]⟩

/-- The `check_neighbors` rebuild protocol: clear the proximity graph's
edges, build the bins (with a capacity-retried `assign_bins`), run the
capacity-retried edge search and keep the compacted edge list.
`binFuel` / `edgeFuel` bound the iterations of the two source `while True`
loops; `binHint` / `edgeHint` are the persisted capacity estimates. -/
def checkNeighborsRun (n : ℕ) (loc : ℕ → Vec3 α) (d : α)
    (binFuel binHint edgeFuel edgeHint : ℕ) : Option (List (ℕ × ℕ)) :=
  match binLoop n loc d binFuel binHint with
  | none => none
  | some (bins, _) => edgeLoop P n bins d loc edgeFuel edgeHint

theorem checkNeighborsRun_eq_fullEdges {n : ℕ} {loc : ℕ → Vec3 α} {d : α}
    {binFuel binHint edgeFuel edgeHint : ℕ}
    (hbf : 2 ≤ binFuel) (hef : 2 ≤ edgeFuel) :
    checkNeighborsRun P n loc d binFuel binHint edgeFuel edgeHint =
      some (fullEdges P n (idealBins n loc d) d loc) := by
  obtain ⟨M', hM'⟩ := @binLoop_eq_idealBins _ _ _ n loc d binFuel binHint hbf
  rw [checkNeighborsRun, hM']
  exact edgeLoop_eq_fullEdges P hef

end Search

/-- The proximity predicate of `check_neighbors` / `get_neighbors_cpu`:
`np.linalg.norm(locations[current] - locations[focus]) <= distance`.  Over
`ℚ` it is stated as the equivalent squared comparison; `sqrt_sqDist_le_iff`
shows the two agree for the source's nonnegative search radius. -/
def proximityNear (loc : ℕ → Vec3 ℚ) (d : ℚ) (i j : ℕ) : Prop :=
  sqDist (loc i) (loc j) ≤ d ^ 2

instance (loc : ℕ → Vec3 ℚ) (d : ℚ) (i j : ℕ) : Decidable (proximityNear loc d i j) :=
  inferInstanceAs (Decidable (sqDist (loc i) (loc j) ≤ d ^ 2))

/-- C1.  After the proximity-graph rebuild (`check_neighbors`), for every
population of `n` cells with positions in the domain, the proximity
graph's edge set is exactly `{(i,j) : i < j < n ∧ ‖x_i − x_j‖ ≤ r_n}` as
of the positions at the rebuild, with no self-loops and no duplicate
edges. -/
theorem check_neighbors_rebuild_exact
    (n : ℕ) (loc : ℕ → Vec3 ℚ) (d : ℚ) (size : Vec3 ℚ)
    (hd : 0 < d)
    (hdom : ∀ i < n, ∀ k : Fin 3, 0 ≤ loc i k ∧ loc i k ≤ size k)
    (binFuel binHint edgeFuel edgeHint : ℕ)
    (hbf : 2 ≤ binFuel) (hef : 2 ≤ edgeFuel) :
    ∃ E, checkNeighborsRun (proximityNear loc d) n loc d
          binFuel binHint edgeFuel edgeHint = some E ∧
      (∀ i j : ℕ, (i, j) ∈ E ↔ i < j ∧ j < n ∧
        Real.sqrt ((sqDist (loc i) (loc j) : ℚ) : ℝ) ≤ (d : ℝ)) ∧
      E.Nodup ∧ (∀ p ∈ E, p.1 ≠ p.2) := by
  refine ⟨_, checkNeighborsRun_eq_fullEdges _ hbf hef, ?_, ?_, ?_⟩
  · intro i j
    constructor
    · intro h
      obtain ⟨hij, hjn, hP⟩ := mem_fullEdges_elim _ h
      exact ⟨hij, hjn, (sqrt_sqDist_le_iff _ _ _ hd.le).mpr hP⟩
    · rintro ⟨hij, hjn, hle⟩
      have hP : proximityNear loc d i j := (sqrt_sqDist_le_iff _ _ _ hd.le).mp hle
      exact mem_fullEdges_of _ hd hij hjn hP hP
  · exact nodup_fullEdges _ n loc d
  · intro p hp
    exact Nat.ne_of_lt (mem_fullEdges_elim _ hp).1

theorem check_neighbors_rebuild_exact_witness :
    (0 : ℚ) < 1 ∧
      (∀ i < 2, ∀ k : Fin 3, 0 ≤ (fun (_ : ℕ) (_ : Fin 3) => (0 : ℚ)) i k ∧
        (fun (_ : ℕ) (_ : Fin 3) => (0 : ℚ)) i k ≤ (fun (_ : Fin 3) => (0 : ℚ)) k) ∧
      ∃ E, checkNeighborsRun
            (proximityNear (fun (_ : ℕ) (_ : Fin 3) => (0 : ℚ)) 1) 2
            (fun (_ : ℕ) (_ : Fin 3) => (0 : ℚ)) 1 2 5 2 5 = some E ∧
        (∀ i j : ℕ, (i, j) ∈ E ↔ i < j ∧ j < 2 ∧
          Real.sqrt ((sqDist ((fun (_ : ℕ) (_ : Fin 3) => (0 : ℚ)) i)
            ((fun (_ : ℕ) (_ : Fin 3) => (0 : ℚ)) j) : ℚ) : ℝ) ≤ ((1 : ℚ) : ℝ)) ∧
        E.Nodup ∧ (∀ p ∈ E, p.1 ≠ p.2) :=
  ⟨by norm_num, fun _ _ _ => ⟨le_refl 0, le_refl 0⟩,
    check_neighbors_rebuild_exact 2 _ 1 _ (by norm_num)
      (fun _ _ _ => ⟨le_refl 0, le_refl 0⟩) 2 5 2 5 (by norm_num) (by norm_num)⟩

/-- C8.  For every population, every initial per-cell edge-slab capacity,
and every bin capacity hint, the capacity-doubling retry protocol of the
neighbor search terminates, and its final compacted edge set equals the
edge set of a single pass run with sufficient capacity from the start;
the output has no duplicate edges and no self-loops. -/
theorem neighbor_search_retry_equivalence
    (n : ℕ) (loc : ℕ → Vec3 ℚ) (d : ℚ) (hd : 0 < d)
    (binFuel binHint edgeFuel edgeHint cap : ℕ)
    (hbf : 2 ≤ binFuel) (hef : 2 ≤ edgeFuel)
    (hcap : ∀ focus < n, edgeCountOf (proximityNear loc d)
      (idealBins n loc d) d loc focus ≤ cap) :
    ∃ E, checkNeighborsRun (proximityNear loc d) n loc d
          binFuel binHint edgeFuel edgeHint = some E ∧
      E = passEdges (proximityNear loc d) n (idealBins n loc d) d loc cap ∧
      E.Nodup ∧ (∀ p ∈ E, p.1 ≠ p.2) := by
  refine ⟨_, checkNeighborsRun_eq_fullEdges _ hbf hef, ?_, nodup_fullEdges _ n loc d, ?_⟩
  · exact (passEdges_eq_fullEdges _ hcap).symm
  · intro p hp
    exact Nat.ne_of_lt (mem_fullEdges_elim _ hp).1

theorem neighbor_search_retry_equivalence_witness :
    (0 : ℚ) < 1 ∧
      (∀ focus < 2, edgeCountOf (proximityNear (fun (_ : ℕ) (_ : Fin 3) => (0 : ℚ)) 1)
        (idealBins 2 (fun (_ : ℕ) (_ : Fin 3) => (0 : ℚ)) 1) 1
        (fun (_ : ℕ) (_ : Fin 3) => (0 : ℚ)) focus ≤ 5) ∧
      ∃ E, checkNeighborsRun
            (proximityNear (fun (_ : ℕ) (_ : Fin 3) => (0 : ℚ)) 1) 2
            (fun (_ : ℕ) (_ : Fin 3) => (0 : ℚ)) 1 3 1 3 1 = some E ∧
        E = passEdges (proximityNear (fun (_ : ℕ) (_ : Fin 3) => (0 : ℚ)) 1) 2
          (idealBins 2 (fun (_ : ℕ) (_ : Fin 3) => (0 : ℚ)) 1) 1
          (fun (_ : ℕ) (_ : Fin 3) => (0 : ℚ)) 5 ∧
        E.Nodup ∧ (∀ p ∈ E, p.1 ≠ p.2) :=
  ⟨by norm_num,
    fun focus _ => le_trans (edgeCountOf_le_population _ 2 _ 1 focus) (by norm_num),
    neighbor_search_retry_equivalence 2 _ 1 (by norm_num) 3 1 3 1 5
      (by norm_num) (by norm_num)
      (fun focus _ => le_trans (edgeCountOf_le_population _ 2 _ 1 focus) (by norm_num))⟩

/-! ### Morphogen grid access (`get_concentration`, `adjust_morphogens`) -/

/-- A morphogen gradient: concentration at integer diffusion-point indices
(`gradient[x][y][z]`). -/
abbrev Grid3 : Type := ℤ → ℤ → ℤ → ℚ

/-- One axis of the nearest-diffusion-point computation of
`get_concentration` (and of the `nearest` mode of `adjust_morphogens`):
`half_indices = np.floor(2 * location / spat_res)` followed by
`indices = np.ceil(half_indices / 2)`. -/
def nearestPt (spatRes x : ℚ) : ℤ :=
  ⌈((⌊2 * x / spatRes⌋ : ℤ) : ℚ) / 2⌉

/-- The nearest diffusion point of a cell location, per axis. -/
def nearestIdx (spatRes : ℚ) (v : Vec3 ℚ) : Tri :=
  (nearestPt spatRes (v 0), nearestPt spatRes (v 1), nearestPt spatRes (v 2))

/-- `get_concentration`: read the gradient at the nearest diffusion point
of the cell's location. -/
def get_concentration (g : Grid3) (spatRes : ℚ) (v : Vec3 ℚ) : ℚ :=
  g (nearestIdx spatRes v).1 (nearestIdx spatRes v).2.1 (nearestIdx spatRes v).2.2

/-- The `nearest` mode of `adjust_morphogens`: add `amount` to the gradient
at the cell's nearest diffusion point, leaving every other point unchanged. -/
def adjustNearest (g : Grid3) (spatRes : ℚ) (v : Vec3 ℚ) (amount : ℚ) : Grid3 :=
  fun x y z =>
    if (x, y, z) = nearestIdx spatRes v then g x y z + amount else g x y z

/-- The source's `ceil(floor(2t)/2)` is rounding to the nearest integer
(rounding half up, which is Mathlib's `round`). -/
theorem ceil_half_floor_two_mul (t : ℚ) : ⌈((⌊2 * t⌋ : ℤ) : ℚ) / 2⌉ = round t := by
  rcases Int.even_or_odd ⌊2 * t⌋ with ⟨k, hk⟩ | ⟨k, hk⟩
  · have hlo : ((k + k : ℤ) : ℚ) ≤ 2 * t := by
      rw [← hk]; exact Int.floor_le _
    have hhi : 2 * t < ((k + k : ℤ) : ℚ) + 1 := by
      rw [← hk]; exact Int.lt_floor_add_one _
    push_cast at hlo hhi
    have h1 : ⌈((⌊2 * t⌋ : ℤ) : ℚ) / 2⌉ = k := by
      rw [hk]
      have : ((k + k : ℤ) : ℚ) / 2 = (k : ℚ) := by push_cast; ring
      rw [this, Int.ceil_intCast]
    have h2 : round t = k := by
      rw [round_eq, Int.floor_eq_iff]
      constructor
      · push_cast; linarith
      · push_cast; linarith
    rw [h1, h2]
  · have hlo : ((2 * k + 1 : ℤ) : ℚ) ≤ 2 * t := by
      rw [← hk]; exact Int.floor_le _
    have hhi : 2 * t < ((2 * k + 1 : ℤ) : ℚ) + 1 := by
      rw [← hk]; exact Int.lt_floor_add_one _
    push_cast at hlo hhi
    have h1 : ⌈((⌊2 * t⌋ : ℤ) : ℚ) / 2⌉ = k + 1 := by
      rw [hk, Int.ceil_eq_iff]
      constructor
      · push_cast; linarith
      · push_cast; linarith
    have h2 : round t = k + 1 := by
      rw [round_eq, Int.floor_eq_iff]
      constructor
      · push_cast; linarith
      · push_cast; linarith
    rw [h1, h2]

theorem nearestPt_eq_round (spatRes x : ℚ) :
    nearestPt spatRes x = round (x / spatRes) := by
  unfold nearestPt
  rw [mul_div_assoc]
  exact ceil_half_floor_two_mul (x / spatRes)

/-- C10.  For every cell location, `get_concentration` returns the grid
value at the index obtained by rounding `x_i / Δx` to the nearest integer
on every axis (`c[round(x_i/Δx)]`); ties round half up exactly as the
source's `ceil(floor(2x/Δx)/2)` does. -/
theorem get_concentration_nearest_round (g : Grid3) (spatRes : ℚ) (v : Vec3 ℚ) :
    get_concentration g spatRes v =
      g (round (v 0 / spatRes)) (round (v 1 / spatRes)) (round (v 2 / spatRes)) := by
  unfold get_concentration nearestIdx
  rw [nearestPt_eq_round, nearestPt_eq_round, nearestPt_eq_round]

/-! ### Finite dynamical system update (`cell_pathway`) -/

/-- The discrete regulatory state of one cell: the per-cell scalar arrays
`FGFR`, `ERK`, `GATA6`, `NANOG`, values modulo the simulation-wide `field`. -/
structure FdsState where
  FGFR : ℕ
  ERK : ℕ
  GATA6 : ℕ
  NANOG : ℕ
  deriving DecidableEq

/-- One fired FDS update of `cell_pathway` (the body of the
`fds_counters[index] % fds_thresh == 0` branch) for the Boolean system
(`field = 2`): sample the FGF4 gradient at the cell's position, quantize
with one threshold at `max_concentration * 0.5`, apply the mod-2 update
polynomials to `(x₁, …, x₅) = (fgf4_fds, FGFR, ERK, GATA6, NANOG)`, and if
FGFR increased deduct the increase from the FGF4 gradient at the cell's
nearest diffusion point (`update_concentrations(..., -1 * fgfr_change,
"nearest")`).

The source reads the current scalar values through vestigial subscripts
(`simulation.FGFR[index][0]`, ..., `simulation.NANOG[index][3]`) left over
from the earlier packed `cell_fds` row layout; these arrays are scalar per
cell everywhere else in the source and are embedded as such here. -/
def cellPathwayFire2 (maxConc spatRes : ℚ) (g : Grid3) (v : Vec3 ℚ)
    (st : FdsState) : FdsState × Grid3 :=
  let fgf4_value := get_concentration g spatRes v
  let fgf4_fds : ℕ := if fgf4_value > maxConc * (1 / 2) then 1 else 0
  let x1 := fgf4_fds
  let x2 := st.FGFR
  let x3 := st.ERK
  let x4 := st.GATA6
  let x5 := st.NANOG
  let new_fgfr := (x1 * x4) % 2
  let new_erk := x2 % 2
  let new_gata6 := (1 + x5 + x5 * x4) % 2
  let new_nanog := ((x3 + 1) * (x4 + 1)) % 2
  let fgfr_change : ℤ := (new_fgfr : ℤ) - (st.FGFR : ℤ)
  let gUpd := if 0 < fgfr_change then
      adjustNearest g spatRes v (-1 * (fgfr_change : ℚ))
    else g
  (⟨new_fgfr, new_erk, new_gata6, new_nanog⟩, gUpd)

/-- C5.  When a cell's regulatory (FDS) update fires with `k = 2`, the new
discrete state is `FGFR' = (x₁·x₄) mod 2`, `ERK' = x₂ mod 2`,
`GATA6' = (1 + x₅ + x₅·x₄) mod 2`, `NANOG' = ((x₃+1)·(x₄+1)) mod 2`
computed from the current state `(x₂,…,x₅)` and the quantized FGF4 sample
`x₁`, and when `FGFR' > FGFR` the increase is subtracted from the FGF4
field at the cell's location, with no refund when FGFR decreases and no
change anywhere else on the grid. -/
theorem cell_pathway_fire_boolean (maxConc spatRes : ℚ) (g : Grid3)
    (v : Vec3 ℚ) (st : FdsState) :
    ((cellPathwayFire2 maxConc spatRes g v st).1).FGFR =
        ((if get_concentration g spatRes v > maxConc * (1 / 2) then 1 else 0) *
          st.GATA6) % 2 ∧
    ((cellPathwayFire2 maxConc spatRes g v st).1).ERK = st.FGFR % 2 ∧
    ((cellPathwayFire2 maxConc spatRes g v st).1).GATA6 =
        (1 + st.NANOG + st.NANOG * st.GATA6) % 2 ∧
    ((cellPathwayFire2 maxConc spatRes g v st).1).NANOG =
        ((st.ERK + 1) * (st.GATA6 + 1)) % 2 ∧
    (∀ x y z : ℤ, (cellPathwayFire2 maxConc spatRes g v st).2 x y z =
      if st.FGFR < ((cellPathwayFire2 maxConc spatRes g v st).1).FGFR ∧
          (x, y, z) = nearestIdx spatRes v then
        g x y z -
          ((((cellPathwayFire2 maxConc spatRes g v st).1).FGFR : ℚ) - (st.FGFR : ℚ))
      else g x y z) := by
  refine ⟨rfl, rfl, rfl, rfl, ?_⟩
  intro x y z
  have hred : (cellPathwayFire2 maxConc spatRes g v st).2 =
      if (0 : ℤ) <
          ((((if get_concentration g spatRes v > maxConc * (1 / 2) then 1 else 0) *
            st.GATA6) % 2 : ℕ) : ℤ) - (st.FGFR : ℤ) then
        adjustNearest g spatRes v
          (-1 * (((((if get_concentration g spatRes v > maxConc * (1 / 2) then 1
            else 0) * st.GATA6) % 2 : ℕ) : ℤ) - (st.FGFR : ℤ) : ℤ))
      else g := rfl
  rw [hred]
  by_cases hch : st.FGFR <
      (((if get_concentration g spatRes v > maxConc * (1 / 2) then 1 else 0) *
        st.GATA6) % 2 : ℕ)
  · rw [if_pos (by omega)]
    unfold adjustNearest
    by_cases hxyz : (x, y, z) = nearestIdx spatRes v
    · rw [if_pos hxyz]
      rw [if_pos (show st.FGFR < (cellPathwayFire2 maxConc spatRes g v st).1.FGFR ∧
        (x, y, z) = nearestIdx spatRes v from ⟨hch, hxyz⟩)]
      have hF : (cellPathwayFire2 maxConc spatRes g v st).1.FGFR =
          ((if get_concentration g spatRes v > maxConc * (1 / 2) then 1 else 0) *
            st.GATA6) % 2 := rfl
      rw [hF]
      set N : ℕ := ((if get_concentration g spatRes v > maxConc * (1 / 2) then 1
        else 0) * st.GATA6) % 2 with hN
      push_cast
      ring
    · rw [if_neg hxyz, if_neg (fun h => hxyz h.2)]
  · rw [if_neg (by omega), if_neg (fun h => hch h.1)]

/-! ### Contact-induced differentiation (`cell_diff_surround`) -/

/-- The two mutually exclusive cell states (`simulation.states` strings). -/
inductive CellState where
  | Pluripotent
  | Differentiated
  deriving DecidableEq

/-- The number of Differentiated proximity neighbors that forces a
Pluripotent cell to differentiate.  This is the specification's configured
threshold `D_diff_surround`; the source `cell_diff_surround` writes the
constant `6`. -/
def diffSurroundThresh : ℕ := 6

/-- The inner loop of `cell_diff_surround`: walk the focus cell's neighbor
list, counting Differentiated neighbors, reporting whether the running
count reaches the threshold (the source breaks out as soon as it does). -/
def diffSurroundScan (states : ℕ → CellState) : List ℕ → ℕ → Bool
  | [], _ => false
  | nb :: rest, count =>
    let count' := if states nb = CellState.Differentiated then count + 1 else count
    if diffSurroundThresh ≤ count' then true else diffSurroundScan states rest count'

/-- The body of the `cell_diff_surround` loop for one focus cell: a
Pluripotent cell with `GATA6 < field - 1` whose Differentiated-neighbor
count reaches the threshold gets `GATA6 ← field - 1` and `NANOG ← 0`. -/
def cellDiffSurroundOne (field : ℕ) (states : ℕ → CellState)
    (neighbors : ℕ → List ℕ) (G N : ℕ → ℕ) (index : ℕ) : (ℕ → ℕ) × (ℕ → ℕ) :=
  if states index = CellState.Pluripotent ∧ G index < field - 1 then
    if diffSurroundScan states (neighbors index) 0 then
      (Function.update G index (field - 1), Function.update N index 0)
    else (G, N)
  else (G, N)

/-- The `cell_diff_surround` pass: the sequential loop over all cells.
Only the focus cell's own `GATA6` and `NANOG` entries are written, and the
loop reads only the (unwritten) `states` of neighbors, so the iterations
are independent. -/
def cellDiffSurroundPass (field : ℕ) (states : ℕ → CellState)
    (neighbors : ℕ → List ℕ) (n : ℕ) (G N : ℕ → ℕ) : (ℕ → ℕ) × (ℕ → ℕ) :=
  (List.range n).foldl
    (fun p i => cellDiffSurroundOne field states neighbors p.1 p.2 i) (G, N)

/-- The Differentiated-neighbor count of a focus cell. -/
def diffNeighborCount (states : ℕ → CellState) (neighbors : ℕ → List ℕ)
    (index : ℕ) : ℕ :=
  (neighbors index).countP (fun nb => decide (states nb = CellState.Differentiated))

theorem diffSurroundScan_iff (states : ℕ → CellState) :
    ∀ (l : List ℕ) (c : ℕ), c < diffSurroundThresh →
      (diffSurroundScan states l c = true ↔
        diffSurroundThresh ≤
          c + l.countP (fun nb => decide (states nb = CellState.Differentiated)))
  | [], c, hc => by
    simp [diffSurroundScan]
    omega
  | nb :: rest, c, hc => by
    rw [diffSurroundScan, List.countP_cons]
    by_cases hnb : states nb = CellState.Differentiated
    · rw [if_pos hnb]
      by_cases hstop : diffSurroundThresh ≤ c + 1
      · rw [if_pos hstop]
        simp [hnb]
        omega
      · rw [if_neg hstop, diffSurroundScan_iff states rest (c + 1) (by omega)]
        simp [hnb]
        omega
    · rw [if_neg hnb, if_neg (show ¬ diffSurroundThresh ≤ c by omega),
        diffSurroundScan_iff states rest c hc]
      simp [hnb]

theorem cellDiffSurroundOne_self (field : ℕ) (states : ℕ → CellState)
    (neighbors : ℕ → List ℕ) (G N : ℕ → ℕ) (i : ℕ) :
    ((cellDiffSurroundOne field states neighbors G N i).1 i,
     (cellDiffSurroundOne field states neighbors G N i).2 i) =
      if (states i = CellState.Pluripotent ∧ G i < field - 1) ∧
          diffSurroundScan states (neighbors i) 0 then (field - 1, 0)
      else (G i, N i) := by
  unfold cellDiffSurroundOne
  by_cases h1 : states i = CellState.Pluripotent ∧ G i < field - 1
  · by_cases h2 : diffSurroundScan states (neighbors i) 0 = true
    · rw [if_pos h1, if_pos h2, if_pos ⟨h1, h2⟩]
      simp [Function.update_same]
    · rw [if_pos h1, if_neg h2, if_neg (fun h => h2 h.2)]
  · rw [if_neg h1, if_neg (fun h => h1 h.1)]

theorem cellDiffSurroundOne_other (field : ℕ) (states : ℕ → CellState)
    (neighbors : ℕ → List ℕ) (G N : ℕ → ℕ) (a i : ℕ) (h : i ≠ a) :
    (cellDiffSurroundOne field states neighbors G N a).1 i = G i ∧
    (cellDiffSurroundOne field states neighbors G N a).2 i = N i := by
  unfold cellDiffSurroundOne
  split_ifs with h1 h2
  · exact ⟨Function.update_noteq h _ _, Function.update_noteq h _ _⟩
  · exact ⟨rfl, rfl⟩
  · exact ⟨rfl, rfl⟩

theorem diffSurroundFold_preserve (field : ℕ) (states : ℕ → CellState)
    (neighbors : ℕ → List ℕ) :
    ∀ (L : List ℕ) (p : (ℕ → ℕ) × (ℕ → ℕ)) (i : ℕ), i ∉ L →
      ((L.foldl (fun q a => cellDiffSurroundOne field states neighbors q.1 q.2 a)
        p).1 i = p.1 i ∧
       (L.foldl (fun q a => cellDiffSurroundOne field states neighbors q.1 q.2 a)
        p).2 i = p.2 i)
  | [], p, i, _ => ⟨rfl, rfl⟩
  | a :: L, p, i, hi => by
    rw [List.foldl_cons]
    have hia : i ≠ a := fun h => hi (h ▸ List.mem_cons_self a L)
    have hiL : i ∉ L := fun h => hi (List.mem_cons_of_mem a h)
    have hstep := cellDiffSurroundOne_other field states neighbors p.1 p.2 a i hia
    obtain ⟨hG, hN⟩ := diffSurroundFold_preserve field states neighbors L
      (cellDiffSurroundOne field states neighbors p.1 p.2 a) i hiL
    exact ⟨hG.trans hstep.1, hN.trans hstep.2⟩

theorem diffSurroundFold_char (field : ℕ) (states : ℕ → CellState)
    (neighbors : ℕ → List ℕ) :
    ∀ (L : List ℕ) (p : (ℕ → ℕ) × (ℕ → ℕ)) (i : ℕ), L.Nodup → i ∈ L →
      ((L.foldl (fun q a => cellDiffSurroundOne field states neighbors q.1 q.2 a)
          p).1 i,
       (L.foldl (fun q a => cellDiffSurroundOne field states neighbors q.1 q.2 a)
          p).2 i) =
        if (states i = CellState.Pluripotent ∧ p.1 i < field - 1) ∧
            diffSurroundScan states (neighbors i) 0 then
          (field - 1, 0)
        else (p.1 i, p.2 i)
  | [], _, i, _, hi => absurd hi (List.not_mem_nil i)
  | a :: L, p, i, hnd, hi => by
    rw [List.foldl_cons]
    rcases List.mem_cons.mp hi with rfl | hiL
    · have hiL : i ∉ L := (List.nodup_cons.mp hnd).1
      obtain ⟨hG, hN⟩ := diffSurroundFold_preserve field states neighbors L
        (cellDiffSurroundOne field states neighbors p.1 p.2 i) i hiL
      rw [hG, hN]
      exact cellDiffSurroundOne_self field states neighbors p.1 p.2 i
    · have hia : i ≠ a := fun h =>
        (List.nodup_cons.mp hnd).1 (h ▸ hiL)
      have hstep := cellDiffSurroundOne_other field states neighbors p.1 p.2 a i hia
      rw [diffSurroundFold_char field states neighbors L
        (cellDiffSurroundOne field states neighbors p.1 p.2 a) i
        ((List.nodup_cons.mp hnd).2) hiL, hstep.1, hstep.2]

/-- C9.  In the contact-induced differentiation pass, every Pluripotent
cell with `GATA6 < field - 1` whose number of Differentiated
proximity-graph neighbors is at least the threshold (`D_diff_surround`,
the source's constant 6) has `GATA6` set to `field - 1` and `NANOG` set
to 0, and every cell whose count is below the threshold keeps its `GATA6`
and `NANOG` values unchanged. -/
theorem cell_diff_surround_rule (field n : ℕ) (states : ℕ → CellState)
    (neighbors : ℕ → List ℕ) (G N : ℕ → ℕ) (i : ℕ) (hi : i < n) :
    (states i = CellState.Pluripotent → G i < field - 1 →
      diffSurroundThresh ≤ diffNeighborCount states neighbors i →
      (cellDiffSurroundPass field states neighbors n G N).1 i = field - 1 ∧
      (cellDiffSurroundPass field states neighbors n G N).2 i = 0) ∧
    (diffNeighborCount states neighbors i < diffSurroundThresh →
      (cellDiffSurroundPass field states neighbors n G N).1 i = G i ∧
      (cellDiffSurroundPass field states neighbors n G N).2 i = N i) := by
  have hchar := diffSurroundFold_char field states neighbors (List.range n) (G, N) i
    (List.nodup_range n) (List.mem_range.mpr hi)
  rw [cellDiffSurroundPass]
  constructor
  · intro hplu hlow hcount
    have hscan : diffSurroundScan states (neighbors i) 0 = true :=
      (diffSurroundScan_iff states (neighbors i) 0 (by norm_num [diffSurroundThresh])).mpr
        (by simpa [diffNeighborCount] using hcount)
    rw [if_pos ⟨⟨hplu, hlow⟩, hscan⟩] at hchar
    exact ⟨congrArg Prod.fst hchar, congrArg Prod.snd hchar⟩
  · intro hcount
    have hscan : ¬ diffSurroundScan states (neighbors i) 0 = true := by
      rw [diffSurroundScan_iff states (neighbors i) 0 (by norm_num [diffSurroundThresh])]
      simp only [zero_add]
      rw [diffNeighborCount] at hcount
      omega
    rw [if_neg (fun h => hscan h.2)] at hchar
    exact ⟨congrArg Prod.fst hchar, congrArg Prod.snd hchar⟩

theorem cell_diff_surround_rule_witness :
    (0 : ℕ) < 1 ∧
      (((fun _ : ℕ => CellState.Pluripotent) 0 = CellState.Pluripotent →
        (fun _ : ℕ => 0) 0 < 2 - 1 →
        diffSurroundThresh ≤
          diffNeighborCount (fun _ => CellState.Pluripotent) (fun _ => []) 0 →
        (cellDiffSurroundPass 2 (fun _ => CellState.Pluripotent) (fun _ => []) 1
          (fun _ => 0) (fun _ => 1)).1 0 = 2 - 1 ∧
        (cellDiffSurroundPass 2 (fun _ => CellState.Pluripotent) (fun _ => []) 1
          (fun _ => 0) (fun _ => 1)).2 0 = 0) ∧
      (diffNeighborCount (fun _ => CellState.Pluripotent) (fun _ => []) 0 <
          diffSurroundThresh →
        (cellDiffSurroundPass 2 (fun _ => CellState.Pluripotent) (fun _ => []) 1
          (fun _ => 0) (fun _ => 1)).1 0 = (fun _ : ℕ => 0) 0 ∧
        (cellDiffSurroundPass 2 (fun _ => CellState.Pluripotent) (fun _ => []) 1
          (fun _ => 0) (fun _ => 1)).2 0 = (fun _ : ℕ => 1) 0)) :=
  ⟨Nat.zero_lt_one,
    cell_diff_surround_rule 2 1 (fun _ => CellState.Pluripotent) (fun _ => [])
      (fun _ => 0) (fun _ => 1) 0 Nat.zero_lt_one⟩

/-! ### Diffusion kernel (`update_diffusion_jit`) -/

/-- A padded 2D concentration array `base` of shape `m × n` (the gradient
plus a one-cell halo on every side), as a total function on indices. -/
abbrev Grid2 : Type := ℕ → ℕ → ℚ

/-- The halo copy at the top of each diffusion sub-step, in source order:
`base[:, 0] = base[:, 1]`, `base[:, -1] = base[:, -2]`,
`base[0, :] = base[1, :]`, `base[-1, :] = base[-2, :]`. -/
def haloCopy (m n : ℕ) (g : Grid2) : Grid2 :=
  let g1 : Grid2 := fun i j => if j = 0 then g i 1 else g i j
  let g2 : Grid2 := fun i j => if j = n - 1 then g1 i (n - 2) else g1 i j
  let g3 : Grid2 := fun i j => if i = 0 then g2 1 j else g2 i j
  fun i j => if i = m - 1 then g3 (m - 2) j else g3 i j

/-- The reflective (zero-gradient Neumann) index read of the
specification: the halo row/column mirrors the first interior row/column. -/
def reflectIdx (m i : ℕ) : ℕ :=
  if i = 0 then 1 else if i = m - 1 then m - 2 else i

/-- The four sequential halo copies amount to reading the array through
reflected indices: this holds at every point of the padded array,
including its corners, because the row copies run after the column
copies. -/
theorem haloCopy_eq_reflect (m n : ℕ) (hm : 3 ≤ m) (hn : 3 ≤ n) (g : Grid2)
    (r s : ℕ) : haloCopy m n g r s = g (reflectIdx m r) (reflectIdx n s) := by
  unfold haloCopy reflectIdx
  dsimp only
  split_ifs <;> first | rfl | (exfalso; omega)

/-- Whether `(i, j)` is an interior point of the padded `m × n` array
(the region `base[1:-1, 1:-1]`). -/
def interiorPt (m n i j : ℕ) : Prop :=
  1 ≤ i ∧ i ≤ m - 2 ∧ 1 ≤ j ∧ j ≤ n - 2

instance (m n i j : ℕ) : Decidable (interiorPt m n i j) :=
  inferInstanceAs (Decidable (_ ∧ _ ∧ _ ∧ _))

/-- One diffusion sub-step of `update_diffusion_jit` with coefficient `a`:
copy the halo, compute `temp = a * (base[2:,1:-1] + base[:-2,1:-1] +
base[1:-1,2:] + base[1:-1,:-2])` from the copied array, then
`base[1:-1,1:-1] *= b` with `b = 1 - 4*a` and `+= temp`.  The halo keeps
its copied values. -/
def diffSubStep (m n : ℕ) (a : ℚ) (g : Grid2) : Grid2 :=
  let h := haloCopy m n g
  fun i j =>
    if interiorPt m n i j then
      (1 - 4 * a) * h i j +
        a * (h (i + 1) j + h (i - 1) j + h i (j + 1) + h i (j - 1))
    else h i j

/-- At an interior cell, one sub-step is exactly the five-point stencil
with zero-gradient neighbor reads. -/
theorem diffSubStep_interior (m n : ℕ) (a : ℚ) (g : Grid2) (i j : ℕ)
    (hm : 3 ≤ m) (hn : 3 ≤ n) (hij : interiorPt m n i j) :
    diffSubStep m n a g i j =
      a * (g (reflectIdx m (i + 1)) (reflectIdx n j) +
           g (reflectIdx m (i - 1)) (reflectIdx n j) +
           g (reflectIdx m i) (reflectIdx n (j + 1)) +
           g (reflectIdx m i) (reflectIdx n (j - 1))) +
        (1 - 4 * a) * g i j := by
  obtain ⟨hi1, hi2, hj1, hj2⟩ := hij
  have hri : reflectIdx m i = i := by
    unfold reflectIdx; rw [if_neg (by omega), if_neg (by omega)]
  have hrj : reflectIdx n j = j := by
    unfold reflectIdx; rw [if_neg (by omega), if_neg (by omega)]
  have hpos : interiorPt m n i j := ⟨hi1, hi2, hj1, hj2⟩
  show (if interiorPt m n i j then _ else _) = _
  rw [if_pos hpos]
  rw [haloCopy_eq_reflect m n hm hn, haloCopy_eq_reflect m n hm hn,
    haloCopy_eq_reflect m n hm hn, haloCopy_eq_reflect m n hm hn,
    haloCopy_eq_reflect m n hm hn]
  rw [hri, hrj]
  ring

/-- The coefficient of sub-step `k` of `steps`:
`a = diffuse_dt * diffuse_const / spat_res2`, with the smaller remainder
duration `last_dt` in place of `diffuse_dt` on the final sub-step. -/
def diffStepCoeff (diffuseDt lastDt diffuseConst spatRes2 : ℚ)
    (steps k : ℕ) : ℚ :=
  (if k = steps - 1 then lastDt else diffuseDt) * diffuseConst / spatRes2

/-- The first `k` sub-steps of the `update_diffusion_jit` loop. -/
def diffusionPrefix (m n : ℕ) (dd ld c s2 : ℚ) (steps k : ℕ) (g : Grid2) :
    Grid2 :=
  (List.range k).foldl
    (fun gr idx => diffSubStep m n (diffStepCoeff dd ld c s2 steps idx) gr) g

/-- The `update_diffusion_jit` kernel: `steps` sub-steps of halo copy and
stencil update, the last one with the remainder duration. -/
def updateDiffusionJit (m n : ℕ) (dd ld c s2 : ℚ) (steps : ℕ) (g : Grid2) :
    Grid2 :=
  diffusionPrefix m n dd ld c s2 steps steps g

theorem diffusionPrefix_succ (m n : ℕ) (dd ld c s2 : ℚ) (steps k : ℕ)
    (g : Grid2) :
    diffusionPrefix m n dd ld c s2 steps (k + 1) g =
      diffSubStep m n (diffStepCoeff dd ld c s2 steps k)
        (diffusionPrefix m n dd ld c s2 steps k g) := by
  unfold diffusionPrefix
  rw [List.range_succ, List.foldl_append, List.foldl_cons, List.foldl_nil]

/-- C7.  Every diffusion sub-step of `update_diffusion_jit` first copies
the first interior row/column of the grid into the halo and then updates
every interior cell by `c[i,j] ← a·(c[i+1,j] + c[i−1,j] + c[i,j+1] +
c[i,j−1]) + (1−4a)·c[i,j]`, with `a = D·Δt/Δx²` where `Δt` is that
sub-step's duration (`diffuse_dt`, or the smaller remainder `last_dt` on
the final sub-step).  The neighbor reads go through the copied halo, i.e.
through reflected indices at the boundary. -/
theorem update_diffusion_substep_stencil
    (m n : ℕ) (dd ld c s2 : ℚ) (steps : ℕ) (g : Grid2) (k : ℕ)
    (hm : 3 ≤ m) (hn : 3 ≤ n) (hk : k < steps) (i j : ℕ)
    (hij : interiorPt m n i j) :
    diffusionPrefix m n dd ld c s2 steps (k + 1) g i j =
      diffStepCoeff dd ld c s2 steps k *
        (diffusionPrefix m n dd ld c s2 steps k g (reflectIdx m (i + 1)) (reflectIdx n j) +
         diffusionPrefix m n dd ld c s2 steps k g (reflectIdx m (i - 1)) (reflectIdx n j) +
         diffusionPrefix m n dd ld c s2 steps k g (reflectIdx m i) (reflectIdx n (j + 1)) +
         diffusionPrefix m n dd ld c s2 steps k g (reflectIdx m i) (reflectIdx n (j - 1))) +
      (1 - 4 * diffStepCoeff dd ld c s2 steps k) *
        diffusionPrefix m n dd ld c s2 steps k g i j := by
  rw [diffusionPrefix_succ]
  exact diffSubStep_interior m n _ _ i j hm hn hij

theorem update_diffusion_substep_stencil_witness :
    3 ≤ 3 ∧ 0 < 1 ∧ interiorPt 3 3 1 1 ∧
      diffusionPrefix 3 3 1 1 1 1 1 (0 + 1) (fun _ _ => (0 : ℚ)) 1 1 =
        diffStepCoeff 1 1 1 1 1 0 *
          ((fun gr => diffusionPrefix 3 3 1 1 1 1 1 0 gr)
              (fun _ _ => (0 : ℚ)) (reflectIdx 3 (1 + 1)) (reflectIdx 3 1) +
            diffusionPrefix 3 3 1 1 1 1 1 0 (fun _ _ => (0 : ℚ))
              (reflectIdx 3 (1 - 1)) (reflectIdx 3 1) +
            diffusionPrefix 3 3 1 1 1 1 1 0 (fun _ _ => (0 : ℚ))
              (reflectIdx 3 1) (reflectIdx 3 (1 + 1)) +
            diffusionPrefix 3 3 1 1 1 1 1 0 (fun _ _ => (0 : ℚ))
              (reflectIdx 3 1) (reflectIdx 3 (1 - 1))) +
          (1 - 4 * diffStepCoeff 1 1 1 1 1 0) *
            diffusionPrefix 3 3 1 1 1 1 1 0 (fun _ _ => (0 : ℚ)) 1 1 :=
  ⟨le_refl 3, Nat.zero_lt_one, ⟨le_refl 1, by norm_num, le_refl 1, by norm_num⟩,
    update_diffusion_substep_stencil 3 3 1 1 1 1 1 (fun _ _ => (0 : ℚ)) 0
      (le_refl 3) (le_refl 3) Nat.zero_lt_one 1 1
      ⟨le_refl 1, by norm_num, le_refl 1, by norm_num⟩⟩

/-! ### JKR contact mechanics (`jkr_neighbors`, `get_forces`,
`apply_forces`, `handle_movement`) over `ℝ` -/

/-- Euclidean distance of two locations, `np.linalg.norm(u - v)`. -/
noncomputable def normDist (u v : Vec3 ℝ) : ℝ := Real.sqrt (sqDist u v)

/-- The contact candidacy predicate of `jkr_neighbors_cpu`:
`overlap = radii[current] + radii[focus] - mag` with `overlap >= 0`. -/
def jkrOverlapPred (loc : ℕ → Vec3 ℝ) (radii : ℕ → ℝ) (i j : ℕ) : Prop :=
  0 ≤ radii j + radii i - normDist (loc j) (loc i)

noncomputable instance (loc : ℕ → Vec3 ℝ) (radii : ℕ → ℝ) (i j : ℕ) :
    Decidable (jkrOverlapPred loc radii i j) :=
  inferInstanceAs (Decidable (_ ≤ _))

/-- `e_hat` of `get_forces_cpu`:
`(((1 - poisson ** 2) / youngs) + ((1 - poisson ** 2) / youngs)) ** -1`. -/
noncomputable def eHat (poisson youngs : ℝ) : ℝ :=
  (((1 - poisson ^ 2) / youngs) + ((1 - poisson ^ 2) / youngs))⁻¹

/-- `r_hat` of `get_forces_cpu`: `((1 / r_a) + (1 / r_b)) ** -1`. -/
noncomputable def rHat (r1 r2 : ℝ) : ℝ := ((1 / r1) + (1 / r2))⁻¹

/-- `overlap_` of `get_forces_cpu`, the adhesion normalization:
`(((pi * adhesion_const) / e_hat) ** (2/3)) * (r_hat ** (1/3))`. -/
noncomputable def delta0 (poisson youngs adhesion r1 r2 : ℝ) : ℝ :=
  ((Real.pi * adhesion) / eHat poisson youngs) ^ ((2 : ℝ) / 3) *
    (rHat r1 r2) ^ ((1 : ℝ) / 3)

/-- The nondimensionalized overlap `d = overlap / overlap_` of an edge. -/
noncomputable def dNondim (poisson youngs adhesion : ℝ) (loc : ℕ → Vec3 ℝ)
    (radii : ℕ → ℝ) (a b : ℕ) : ℝ :=
  (radii a + radii b - normDist (loc a) (loc b)) /
    delta0 poisson youngs adhesion (radii a) (radii b)

/-- The nondimensional JKR force polynomial
`f = -0.0204*d^3 + 0.4942*d^2 + 1.0801*d - 1.324`. -/
noncomputable def jkrPoly (d : ℝ) : ℝ :=
  (-0.0204) * d ^ 3 + 0.4942 * d ^ 2 + 1.0801 * d - 1.324

/-- The body of `get_forces_cpu` for a single contact edge `(a, b)`:
returns the updated `jkr_forces` array and the edge's `delete_edges` flag.
Order as in the source: `jkr_forces[cell_1] += jkr_force * normal`, then
`jkr_forces[cell_2] -= jkr_force * normal`; the normal is the zero vector
when the center separation is zero. -/
noncomputable def getForcesEdge (poisson youngs adhesion : ℝ)
    (loc : ℕ → Vec3 ℝ) (radii : ℕ → ℝ) (jkrF : ℕ → Vec3 ℝ) (a b : ℕ) :
    (ℕ → Vec3 ℝ) × Bool :=
  let mag := normDist (loc a) (loc b)
  let d := dNondim poisson youngs adhesion loc radii a b
  if -0.360562 < d then
    let jkr_force := jkrPoly d * Real.pi * adhesion * rHat (radii a) (radii b)
    let normal : Vec3 ℝ := if mag ≠ 0 then mag⁻¹ • (loc a - loc b) else 0
    let F1 := Function.update jkrF a (jkrF a + jkr_force • normal)
    (Function.update F1 b (F1 b - jkr_force • normal), false)
  else (jkrF, true)

/-- The specification's unit separation vector `n̂ = (x_a − x_b)/mag`, or
the zero vector when `mag = 0`. -/
noncomputable def specNormal (loc : ℕ → Vec3 ℝ) (a b : ℕ) : Vec3 ℝ :=
  if normDist (loc a) (loc b) = 0 then 0
  else (normDist (loc a) (loc b))⁻¹ • (loc a - loc b)

/-- The specification's force magnitude `F = f(d) · π · γ · R̂`. -/
noncomputable def specForceMag (poisson youngs adhesion : ℝ)
    (loc : ℕ → Vec3 ℝ) (radii : ℕ → ℝ) (a b : ℕ) : ℝ :=
  jkrPoly (dNondim poisson youngs adhesion loc radii a b) *
    Real.pi * adhesion * rHat (radii a) (radii b)

/-- C2.  For every contact edge `(a, b)`: when the nondimensional overlap
`d = (r_a + r_b − mag)/δ₀` with `δ₀ = ((π·γ)/Ê)^(2/3)·R̂^(1/3)` exceeds
the breakpoint `−0.360562`, the force `F = f(d)·π·γ·R̂` is added along
`n̂` to `jkr_force[a]` and subtracted from `jkr_force[b]` (every other
cell's accumulator unchanged, edge not marked); when `d ≤ −0.360562` no
force is applied and the edge is marked for deletion. -/
theorem get_forces_edge_rule (poisson youngs adhesion : ℝ)
    (loc : ℕ → Vec3 ℝ) (radii : ℕ → ℝ) (jkrF : ℕ → Vec3 ℝ) (a b : ℕ)
    (hab : a ≠ b) :
    (-0.360562 < dNondim poisson youngs adhesion loc radii a b →
      (getForcesEdge poisson youngs adhesion loc radii jkrF a b).1 a =
          jkrF a + specForceMag poisson youngs adhesion loc radii a b •
            specNormal loc a b ∧
      (getForcesEdge poisson youngs adhesion loc radii jkrF a b).1 b =
          jkrF b - specForceMag poisson youngs adhesion loc radii a b •
            specNormal loc a b ∧
      (∀ c, c ≠ a → c ≠ b →
        (getForcesEdge poisson youngs adhesion loc radii jkrF a b).1 c = jkrF c) ∧
      (getForcesEdge poisson youngs adhesion loc radii jkrF a b).2 = false) ∧
    (dNondim poisson youngs adhesion loc radii a b ≤ -0.360562 →
      (getForcesEdge poisson youngs adhesion loc radii jkrF a b).1 = jkrF ∧
      (getForcesEdge poisson youngs adhesion loc radii jkrF a b).2 = true) := by
  have hnorm : (if normDist (loc a) (loc b) ≠ 0 then
      (normDist (loc a) (loc b))⁻¹ • (loc a - loc b) else 0) = specNormal loc a b := by
    unfold specNormal
    by_cases h0 : normDist (loc a) (loc b) = 0
    · rw [if_neg (by simpa using h0), if_pos h0]
    · rw [if_pos h0, if_neg h0]
  constructor
  · intro hd
    have hred : getForcesEdge poisson youngs adhesion loc radii jkrF a b =
        (Function.update
          (Function.update jkrF a (jkrF a +
            specForceMag poisson youngs adhesion loc radii a b • specNormal loc a b))
          b
          ((Function.update jkrF a (jkrF a +
            specForceMag poisson youngs adhesion loc radii a b • specNormal loc a b)) b -
            specForceMag poisson youngs adhesion loc radii a b • specNormal loc a b),
          false) := by
      unfold getForcesEdge
      rw [if_pos hd, hnorm]
      rfl
    rw [hred]
    dsimp only
    refine ⟨?_, ?_, ?_, rfl⟩
    · rw [Function.update_noteq hab, Function.update_same]
    · rw [Function.update_same, Function.update_noteq (Ne.symm hab)]
    · intro c hca hcb
      rw [Function.update_noteq hcb, Function.update_noteq hca]
  · intro hd
    have hred : getForcesEdge poisson youngs adhesion loc radii jkrF a b =
        (jkrF, true) := by
      unfold getForcesEdge
      rw [if_neg (not_lt.mpr hd)]
    rw [hred]
    exact ⟨rfl, rfl⟩

theorem get_forces_edge_rule_witness :
    (0 : ℕ) ≠ 1 ∧
      ((-0.360562 < dNondim (1/2) 1000 0.000107 (fun _ _ => (0 : ℝ)) (fun _ => 1) 0 1 →
        (getForcesEdge (1/2) 1000 0.000107 (fun _ _ => (0 : ℝ)) (fun _ => 1)
            (fun _ _ => 0) 0 1).1 0 =
          (fun _ _ => (0 : ℝ)) 0 + specForceMag (1/2) 1000 0.000107
            (fun _ _ => (0 : ℝ)) (fun _ => 1) 0 1 •
              specNormal (fun _ _ => (0 : ℝ)) 0 1 ∧
        (getForcesEdge (1/2) 1000 0.000107 (fun _ _ => (0 : ℝ)) (fun _ => 1)
            (fun _ _ => 0) 0 1).1 1 =
          (fun _ _ => (0 : ℝ)) 1 - specForceMag (1/2) 1000 0.000107
            (fun _ _ => (0 : ℝ)) (fun _ => 1) 0 1 •
              specNormal (fun _ _ => (0 : ℝ)) 0 1 ∧
        (∀ c, c ≠ 0 → c ≠ 1 →
          (getForcesEdge (1/2) 1000 0.000107 (fun _ _ => (0 : ℝ)) (fun _ => 1)
            (fun _ _ => 0) 0 1).1 c = (fun _ _ => (0 : ℝ)) c) ∧
        (getForcesEdge (1/2) 1000 0.000107 (fun _ _ => (0 : ℝ)) (fun _ => 1)
          (fun _ _ => 0) 0 1).2 = false) ∧
      (dNondim (1/2) 1000 0.000107 (fun _ _ => (0 : ℝ)) (fun _ => 1) 0 1 ≤ -0.360562 →
        (getForcesEdge (1/2) 1000 0.000107 (fun _ _ => (0 : ℝ)) (fun _ => 1)
          (fun _ _ => 0) 0 1).1 = (fun _ _ => (0 : ℝ)) ∧
        (getForcesEdge (1/2) 1000 0.000107 (fun _ _ => (0 : ℝ)) (fun _ => 1)
          (fun _ _ => 0) 0 1).2 = true)) :=
  ⟨Nat.zero_ne_one,
    get_forces_edge_rule (1/2) 1000 0.000107 (fun _ _ => (0 : ℝ)) (fun _ => 1)
      (fun _ _ => 0) 0 1 Nat.zero_ne_one⟩

/-- The viscosity constant of `apply_forces` (`10000 Ns/m`). -/
noncomputable def viscosityConst : ℝ := 10000

/-- The position integration of `apply_forces_cpu`, per cell and axis:
Stokes friction `6·π·η·r`, velocity `(motility + jkr)/ζ`, tentative
position `x + v·Δt`, then componentwise clamping to `[0, size]`. -/
noncomputable def applyForcesLoc (loc : ℕ → Vec3 ℝ) (radii : ℕ → ℝ)
    (motility jkrF : ℕ → Vec3 ℝ) (size : Vec3 ℝ) (moveDt : ℝ) :
    ℕ → Vec3 ℝ :=
  fun i ax =>
    let stokes_friction := 6 * Real.pi * viscosityConst * radii i
    let velocity := (motility i ax + jkrF i ax) / stokes_friction
    let new_location := loc i ax + velocity * moveDt
    if new_location > size ax then size ax
    else if new_location < 0 then 0
    else new_location

/-- C4.  After a motion sub-step's position integration — velocity
`(motility + jkr)/(6πηr)`, tentative position `x + v·Δt_move`, then
componentwise clamping — every coordinate of every cell with positive
radius lies in `[0, size[ax]]` (the domain extent being nonnegative). -/
theorem apply_forces_clamps (loc : ℕ → Vec3 ℝ) (radii : ℕ → ℝ)
    (motility jkrF : ℕ → Vec3 ℝ) (size : Vec3 ℝ) (moveDt : ℝ)
    (i : ℕ) (ax : Fin 3) (hsize : 0 ≤ size ax) (hr : 0 < radii i) :
    0 ≤ applyForcesLoc loc radii motility jkrF size moveDt i ax ∧
    applyForcesLoc loc radii motility jkrF size moveDt i ax ≤ size ax := by
  unfold applyForcesLoc
  dsimp only
  split_ifs with h1 h2
  · exact ⟨hsize, le_refl _⟩
  · exact ⟨le_refl _, hsize⟩
  · exact ⟨le_of_not_lt h2, le_of_not_lt (by simpa using h1)⟩

theorem apply_forces_clamps_witness :
    (0 : ℝ) ≤ (fun _ : Fin 3 => (0 : ℝ)) 0 ∧ (0 : ℝ) < 1 ∧
      (0 ≤ applyForcesLoc (fun _ _ => 0) (fun _ => 1) (fun _ _ => 0)
        (fun _ _ => 0) (fun _ => 0) 1 0 0 ∧
       applyForcesLoc (fun _ _ => 0) (fun _ => 1) (fun _ _ => 0)
        (fun _ _ => 0) (fun _ => 0) 1 0 0 ≤ (fun _ : Fin 3 => (0 : ℝ)) 0) :=
  ⟨le_refl 0, one_pos,
    apply_forces_clamps (fun _ _ => 0) (fun _ => 1) (fun _ _ => 0) (fun _ _ => 0)
      (fun _ => 0) 1 0 0 (le_refl 0) one_pos⟩

/-- The mechanical per-cell state threaded through `handle_movement` and
`update_queue`: the structure-of-arrays fields the motion and queue phases
touch, with each graph as an edge set (`0 ≤ u < v` pairs, kept duplicate
free by igraph's `simplify`) plus an explicit vertex count. -/
structure SimState where
  n : ℕ
  loc : ℕ → Vec3 ℝ
  radii : ℕ → ℝ
  motility : ℕ → Vec3 ℝ
  jkrF : ℕ → Vec3 ℝ
  divC : ℕ → ℕ
  nbrVerts : ℕ
  jkrVerts : ℕ
  nbrG : Finset (ℕ × ℕ)
  jkrG : Finset (ℕ × ℕ)
  toDivide : List ℕ
  toRemove : List ℕ

/-- The complete contact-candidate edge list found by `jkr_neighbors` at
search radius `jkr_distance = 2 * max_radius`.  The kernel runs the same
per-cell slab and capacity-doubling retry protocol as `check_neighbors`
(`edgeLoop_eq_fullEdges`/`binLoop_eq_idealBins` show the retried result is
exactly this list). -/
noncomputable def jkrSearchEdges (maxRadius : ℝ) (s : SimState) : List (ℕ × ℕ) :=
  fullEdges (jkrOverlapPred s.loc s.radii) s.n
    (idealBins s.n s.loc (2 * maxRadius)) (2 * maxRadius) s.loc

/-- `jkr_neighbors`: add the found contact edges to the running contact
graph — never clear it — and `simplify()` (the `Finset` union merges
duplicates). -/
noncomputable def jkrNeighborsStep (maxRadius : ℝ) (s : SimState) : SimState :=
  { s with jkrG := s.jkrG ∪ (jkrSearchEdges maxRadius s).toFinset }

/-- The contribution of contact edge `e` to cell `i`'s force accumulator
in `get_forces_cpu`: `+F·n̂` at `cell_1`, `−F·n̂` at `cell_2`, nothing when
the edge is past the bond-break threshold.  The kernel accumulates the
edges sequentially; over exact reals that equals the initial array plus
this commutative per-edge sum. -/
noncomputable def jkrContrib (poisson youngs adhesion : ℝ)
    (loc : ℕ → Vec3 ℝ) (radii : ℕ → ℝ) (e : ℕ × ℕ) (i : ℕ) : Vec3 ℝ :=
  let mag := normDist (loc e.1) (loc e.2)
  let d := dNondim poisson youngs adhesion loc radii e.1 e.2
  if -0.360562 < d then
    let jkr_force := jkrPoly d * Real.pi * adhesion * rHat (radii e.1) (radii e.2)
    let normal : Vec3 ℝ := if mag ≠ 0 then mag⁻¹ • (loc e.1 - loc e.2) else 0
    (if i = e.1 then jkr_force • normal else 0) +
      (if i = e.2 then -(jkr_force • normal) else 0)
  else 0

/-- `get_forces`: accumulate the JKR forces over the current contact edge
list with the source constants (`adhesion_const = 0.000107`,
`poisson = 0.5`, `youngs = 1000`), then delete exactly the edges whose
nondimensional overlap failed the `d > -0.360562` test. -/
noncomputable def getForcesStep (s : SimState) : SimState :=
  { s with
    jkrF := fun i => s.jkrF i +
      ∑ e ∈ s.jkrG, jkrContrib 0.5 1000 0.000107 s.loc s.radii e i,
    jkrG := s.jkrG.filter (fun e =>
      -0.360562 < dNondim 0.5 1000 0.000107 s.loc s.radii e.1 e.2) }

/-- `apply_forces`: integrate and clamp every position, then reset the JKR
force accumulators to zero. -/
noncomputable def applyForcesStep (size : Vec3 ℝ) (moveDt : ℝ) (s : SimState) :
    SimState :=
  { s with
    loc := applyForcesLoc s.loc s.radii s.motility s.jkrF size moveDt,
    jkrF := fun _ => 0 }

/-- The motion parameters of `handle_movement` / `update_queue`:
`max_radius`/`min_radius`, the sub-step duration `move_dt`, the domain
extent, the per-call number of sub-steps (`handle_movement.steps =
ceil(step_dt / move_dt)`), and the staggered-addition `group` size. -/
structure MechParams where
  maxRadius : ℝ
  minRadius : ℝ
  moveDt : ℝ
  size : Vec3 ℝ
  moveSteps : ℕ
  group : ℕ

/-- One motion sub-step of `handle_movement`: contact-graph refresh
(`jkr_neighbors`), force pass with bond-break pruning (`get_forces`),
position integration (`apply_forces`). -/
noncomputable def subStep (p : MechParams) (s : SimState) : SimState :=
  applyForcesStep p.size p.moveDt (getForcesStep (jkrNeighborsStep p.maxRadius s))

/-- The first `k` motion sub-steps. -/
noncomputable def subStepIter (p : MechParams) : ℕ → SimState → SimState
  | 0, s => s
  | k + 1, s => subStepIter p k (subStep p s)

/-- `handle_movement`: run the sub-steps, then reset the motility forces. -/
noncomputable def handleMovement (p : MechParams) (s : SimState) : SimState :=
  { subStepIter p p.moveSteps s with motility := fun _ => 0 }

theorem subStep_jkrG_eq (p : MechParams) (t : SimState) :
    (subStep p t).jkrG =
      (t.jkrG ∪ (jkrSearchEdges p.maxRadius t).toFinset) \
        ((t.jkrG ∪ (jkrSearchEdges p.maxRadius t).toFinset).filter
          (fun e => dNondim 0.5 1000 0.000107 t.loc t.radii e.1 e.2 ≤ -0.360562)) := by
  show ((t.jkrG ∪ (jkrSearchEdges p.maxRadius t).toFinset).filter
      (fun e => -0.360562 < dNondim 0.5 1000 0.000107 t.loc t.radii e.1 e.2)) = _
  rw [← Finset.filter_not]
  apply Finset.filter_congr
  intro e _
  simp [not_le]

/-- C3.  Across the sub-steps of a macro-step the contact (JKR) graph
evolves monotonically: entering any sub-step `k`, the refresh only adds
edges `(i, j)` with `i < j` satisfying `r_i + r_j − ‖x_i − x_j‖ ≥ 0`; the
graph is never cleared (the sub-step's graph is the old edges plus the
refresh, minus exactly the broken edges); and an edge present before the
sub-step is removed only when its nondimensional overlap satisfies
`d ≤ −0.360562` in the force pass. -/
theorem jkr_graph_monotone_substeps (p : MechParams) (s0 : SimState) (k : ℕ) :
    ((subStep p (subStepIter p k s0)).jkrG =
      ((subStepIter p k s0).jkrG ∪
        (jkrSearchEdges p.maxRadius (subStepIter p k s0)).toFinset) \
      (((subStepIter p k s0).jkrG ∪
        (jkrSearchEdges p.maxRadius (subStepIter p k s0)).toFinset).filter
        (fun e => dNondim 0.5 1000 0.000107 (subStepIter p k s0).loc
          (subStepIter p k s0).radii e.1 e.2 ≤ -0.360562))) ∧
    (↑((jkrSearchEdges p.maxRadius (subStepIter p k s0)).toFinset) ⊆
      {e : ℕ × ℕ | e.1 < e.2 ∧
        0 ≤ (subStepIter p k s0).radii e.1 + (subStepIter p k s0).radii e.2 -
          normDist ((subStepIter p k s0).loc e.1) ((subStepIter p k s0).loc e.2)}) ∧
    (↑((subStepIter p k s0).jkrG) \ ↑((subStep p (subStepIter p k s0)).jkrG) ⊆
      {e : ℕ × ℕ | dNondim 0.5 1000 0.000107 (subStepIter p k s0).loc
        (subStepIter p k s0).radii e.1 e.2 ≤ -0.360562}) := by
  refine ⟨subStep_jkrG_eq p _, ?_, ?_⟩
  · intro e he
    rw [Finset.mem_coe, List.mem_toFinset] at he
    obtain ⟨e1, e2⟩ := e
    obtain ⟨hlt, -, hP⟩ := mem_fullEdges_elim _ he
    refine ⟨hlt, ?_⟩
    have : 0 ≤ (subStepIter p k s0).radii e2 + (subStepIter p k s0).radii e1 -
        normDist ((subStepIter p k s0).loc e2) ((subStepIter p k s0).loc e1) := hP
    have hsymm : normDist ((subStepIter p k s0).loc e2) ((subStepIter p k s0).loc e1) =
        normDist ((subStepIter p k s0).loc e1) ((subStepIter p k s0).loc e2) := by
      unfold normDist sqDist
      ring_nf
    rw [hsymm] at this
    linarith [this]
  · intro e he
    rw [Set.mem_diff, Finset.mem_coe, Finset.mem_coe] at he
    obtain ⟨hin, hout⟩ := he
    by_contra hd
    rw [Set.mem_setOf_eq, not_le] at hd
    exact hout (Finset.mem_filter.mpr
      ⟨Finset.mem_union_left _ hin, hd⟩)

/-! ### Bulk add/remove protocol (`update_queue`) -/

/-- Appending the values of the dividing cells to the end of a per-cell
array (`np.concatenate` over `array[cells_to_divide]`): position
`nOld + k` receives the value of the `k`-th dividing cell. -/
def extendArr {β : Type} (nOld : ℕ) (idxs : List ℕ) (arr : ℕ → β) : ℕ → β :=
  fun i =>
    if i < nOld then arr i
    else if i < nOld + idxs.length then arr (idxs.getD (i - nOld) 0)
    else arr i

/-- The mother/daughter placement loop of `update_queue`: for the `k`-th
dividing cell, `division_position = random_vector * (max_radius −
min_radius)` (the `k`-th random unit vector is `offs k`), the mother moves
by `+division_position`, the daughter at index `nOld + k` by
`−division_position`, both radii become `min_radius` and both division
counters 0. -/
noncomputable def divideMove (p : MechParams) (offs : ℕ → Vec3 ℝ)
    (nOld : ℕ) (idxs : List ℕ) (s : SimState) : SimState :=
  (List.range idxs.length).foldl
    (fun st k =>
      let mother := idxs.getD k 0
      let daughter := nOld + k
      let dp : Vec3 ℝ := (p.maxRadius - p.minRadius) • offs k
      let loc1 := Function.update st.loc mother (st.loc mother + dp)
      let loc2 := Function.update loc1 daughter (loc1 daughter - dp)
      { st with
        loc := loc2,
        radii := Function.update (Function.update st.radii mother p.minRadius)
          daughter p.minRadius,
        divC := Function.update (Function.update st.divC mother 0) daughter 0 })
    s

/-- The staggered vertex addition of `update_queue` when `group ≠ 0`: add
`min(group, remaining)` vertices to both graphs, bump the cell count, run
`handle_movement`, and repeat until no cells remain to add.  `fuel` bounds
the iterations of the source's `while remaining > 0` loop. -/
noncomputable def staggerAdd (p : MechParams) : ℕ → ℕ → SimState → SimState
  | 0, _, s => s
  | fuel + 1, remaining, s =>
    if remaining = 0 then s
    else
      let k := if p.group ≤ remaining then p.group else remaining
      let s' := handleMovement p
        { s with
          nbrVerts := s.nbrVerts + k,
          jkrVerts := s.jkrVerts + k,
          n := s.n + k }
      staggerAdd p fuel (remaining - k) s'

/-- The surviving indices after `np.delete(array, indices)`: the positions
not listed, in increasing order. -/
def survivors (nNew : ℕ) (rem : List ℕ) : List ℕ :=
  (List.range nNew).filter (fun i => decide (i ∉ rem))

/-- Compacting a per-cell array over the surviving indices. -/
def deleteArr {β : Type} (nNew : ℕ) (rem : List ℕ) (arr : ℕ → β) : ℕ → β :=
  fun i => arr ((survivors nNew rem).getD i 0)

/-- The index a surviving vertex receives after igraph's `delete_vertices`
compaction: its old index minus the number of removed indices below it. -/
def renumber (rem : List ℕ) (v : ℕ) : ℕ :=
  v - (rem.filter (fun r => decide (r < v))).length

/-- igraph's `delete_vertices` on an edge set: drop every edge incident to
a removed vertex and renumber the surviving endpoints. -/
def deleteVerts (rem : List ℕ) (G : Finset (ℕ × ℕ)) : Finset (ℕ × ℕ) :=
  (G.filter (fun e => e.1 ∉ rem ∧ e.2 ∉ rem)).image
    (fun e => (renumber rem e.1, renumber rem e.2))

/-- The array-copy stage of `update_queue`: every per-cell array gets the
values of the dividing cells appended. -/
def queueExtend (s : SimState) : SimState :=
  { s with
    loc := extendArr s.n s.toDivide s.loc,
    radii := extendArr s.n s.toDivide s.radii,
    motility := extendArr s.n s.toDivide s.motility,
    jkrF := extendArr s.n s.toDivide s.jkrF,
    divC := extendArr s.n s.toDivide s.divC }

/-- The vertex-addition stage of `update_queue`: staggered, with
`handle_movement` after each group, when `group ≠ 0`; all at once (and no
`handle_movement` until the step driver's own call) when `group = 0`. -/
noncomputable def queueAdd (p : MechParams) (D : ℕ) (sDiv : SimState) : SimState :=
  if p.group ≠ 0 then staggerAdd p D D sDiv
  else
    { sDiv with
      nbrVerts := sDiv.nbrVerts + D,
      jkrVerts := sDiv.jkrVerts + D,
      n := sDiv.n + D }

/-- The removal stage of `update_queue`: `np.delete` on every per-cell
array, `delete_vertices` on both graphs, decrement the cell count by the
number of marked cells, and clear both mark arrays. -/
def queueRemove (rem : List ℕ) (sAdd : SimState) : SimState :=
  { sAdd with
    loc := deleteArr sAdd.n rem sAdd.loc,
    radii := deleteArr sAdd.n rem sAdd.radii,
    motility := deleteArr sAdd.n rem sAdd.motility,
    jkrF := deleteArr sAdd.n rem sAdd.jkrF,
    divC := deleteArr sAdd.n rem sAdd.divC,
    nbrG := deleteVerts rem sAdd.nbrG,
    jkrG := deleteVerts rem sAdd.jkrG,
    nbrVerts := sAdd.nbrVerts - rem.length,
    jkrVerts := sAdd.jkrVerts - rem.length,
    n := sAdd.n - rem.length,
    toDivide := [],
    toRemove := [] }

/-- `update_queue`: copy the per-cell values of the dividing cells to the
end of every array, place mothers and daughters, add the new vertices
(staggered through `handle_movement` when `group ≠ 0`), then remove the
marked cells from the arrays and both graphs, and clear both mark arrays. -/
noncomputable def updateQueue (p : MechParams) (offs : ℕ → Vec3 ℝ)
    (s : SimState) : SimState :=
  queueRemove s.toRemove
    (queueAdd p s.toDivide.length
      (divideMove p offs s.n s.toDivide (queueExtend s)))

theorem divideMove_fields (p : MechParams) (offs : ℕ → Vec3 ℝ) (nOld : ℕ)
    (idxs : List ℕ) :
    ∀ s : SimState,
      (divideMove p offs nOld idxs s).n = s.n ∧
      (divideMove p offs nOld idxs s).nbrVerts = s.nbrVerts ∧
      (divideMove p offs nOld idxs s).jkrVerts = s.jkrVerts ∧
      (divideMove p offs nOld idxs s).nbrG = s.nbrG ∧
      (divideMove p offs nOld idxs s).jkrG = s.jkrG ∧
      (divideMove p offs nOld idxs s).toDivide = s.toDivide ∧
      (divideMove p offs nOld idxs s).toRemove = s.toRemove := by
  unfold divideMove
  generalize List.range idxs.length = L
  induction L with
  | nil => exact fun s => ⟨rfl, rfl, rfl, rfl, rfl, rfl, rfl⟩
  | cons a L ih =>
    intro s
    rw [List.foldl_cons]
    exact ih _

theorem nodup_filter_length_le {l : List ℕ} (hnd : l.Nodup) (q : ℕ → Bool)
    (F : Finset ℕ) (h : ∀ x ∈ l.filter q, x ∈ F) : (l.filter q).length ≤ F.card := by
  have h1 : (l.filter q).length = (l.filter q).toFinset.card :=
    (List.toFinset_card_of_nodup (hnd.filter q)).symm
  rw [h1]
  exact Finset.card_le_card (fun x hx => h x (List.mem_toFinset.mp hx))

/-- A surviving vertex of the igraph compaction lands strictly below the
new vertex count. -/
theorem renumber_lt_sub {rem : List ℕ} (hnd : rem.Nodup) {nOld v : ℕ}
    (hrem : ∀ r ∈ rem, r < nOld) (hv : v < nOld) (hvr : v ∉ rem) :
    renumber rem v < nOld - rem.length := by
  have hcu := (List.length_eq_length_filter_add (l := rem)
    (fun r => decide (r < v))).symm
  have hc : (rem.filter (fun r => decide (r < v))).length ≤ v := by
    have := nodup_filter_length_le hnd (fun r => decide (r < v)) (Finset.range v) ?_
    · simpa using this
    · intro x hx
      rcases List.mem_filter.mp hx with ⟨-, hxlt⟩
      exact Finset.mem_range.mpr (by simpa using hxlt)
  have hu : (rem.filter (fun r => ! decide (r < v))).length ≤ nOld - v - 1 := by
    have := nodup_filter_length_le hnd (fun r => ! decide (r < v))
      (Finset.Ioo v nOld) ?_
    · simpa [Nat.card_Ioo] using this
    · intro x hx
      rcases List.mem_filter.mp hx with ⟨hxm, hxge⟩
      have hge : ¬ x < v := by simpa using hxge
      have hne : x ≠ v := fun h => hvr (h ▸ hxm)
      exact Finset.mem_Ioo.mpr ⟨by omega, hrem x hxm⟩
  unfold renumber
  omega

theorem mem_deleteVerts {rem : List ℕ} {G : Finset (ℕ × ℕ)} {e : ℕ × ℕ} :
    e ∈ deleteVerts rem G ↔
      ∃ e' ∈ G, e'.1 ∉ rem ∧ e'.2 ∉ rem ∧
        e = (renumber rem e'.1, renumber rem e'.2) := by
  unfold deleteVerts
  simp only [Finset.mem_image, Finset.mem_filter]
  constructor
  · rintro ⟨e', ⟨he', h1, h2⟩, rfl⟩
    exact ⟨e', he', h1, h2, rfl⟩
  · rintro ⟨e', he', h1, h2, rfl⟩
    exact ⟨e', ⟨he', h1, h2⟩, rfl⟩

/-- The contact-graph refresh only introduces edges between live cells:
after one motion sub-step every contact edge still has both endpoints
below the (unchanged) population count. -/
theorem subStep_jkrG_lt (p : MechParams) (t : SimState)
    (h : ∀ e ∈ t.jkrG, e.1 < t.n ∧ e.2 < t.n) :
    ∀ e ∈ (subStep p t).jkrG, e.1 < t.n ∧ e.2 < t.n := by
  intro e he
  rw [subStep_jkrG_eq] at he
  rcases Finset.mem_union.mp (Finset.mem_sdiff.mp he).1 with hin | hsearch
  · exact h e hin
  · have hmem : e ∈ fullEdges (jkrOverlapPred t.loc t.radii) t.n
        (idealBins t.n t.loc (2 * p.maxRadius)) (2 * p.maxRadius) t.loc :=
      List.mem_toFinset.mp hsearch
    obtain ⟨hlt, hn, -⟩ := mem_fullEdges_elim _ hmem
    exact ⟨hlt.trans hn, hn⟩

/-- Iterated motion sub-steps preserve the population count, both vertex
counts, the proximity graph, the mark arrays, and the bound on
contact-edge endpoints (`handle_movement` only edits positions, forces
and the contact graph). -/
theorem subStepIter_fields (p : MechParams) (k : ℕ) :
    ∀ t : SimState,
      (subStepIter p k t).n = t.n ∧
      (subStepIter p k t).nbrVerts = t.nbrVerts ∧
      (subStepIter p k t).jkrVerts = t.jkrVerts ∧
      (subStepIter p k t).nbrG = t.nbrG ∧
      (subStepIter p k t).toDivide = t.toDivide ∧
      (subStepIter p k t).toRemove = t.toRemove ∧
      ((∀ e ∈ t.jkrG, e.1 < t.n ∧ e.2 < t.n) →
        ∀ e ∈ (subStepIter p k t).jkrG, e.1 < t.n ∧ e.2 < t.n) := by
  induction k with
  | zero => exact fun t => ⟨rfl, rfl, rfl, rfl, rfl, rfl, fun h => h⟩
  | succ k ih =>
    intro t
    obtain ⟨h1, h2, h3, h4, h5, h6, h7⟩ := ih (subStep p t)
    exact ⟨h1, h2, h3, h4, h5, h6, fun hb => h7 (subStep_jkrG_lt p t hb)⟩

/-- `handle_movement` preserves the population count, both vertex counts,
the proximity graph, the mark arrays and the contact-edge endpoint
bound. -/
theorem handleMovement_fields (p : MechParams) (t : SimState) :
    (handleMovement p t).n = t.n ∧
    (handleMovement p t).nbrVerts = t.nbrVerts ∧
    (handleMovement p t).jkrVerts = t.jkrVerts ∧
    (handleMovement p t).nbrG = t.nbrG ∧
    (handleMovement p t).toDivide = t.toDivide ∧
    (handleMovement p t).toRemove = t.toRemove ∧
    ((∀ e ∈ t.jkrG, e.1 < t.n ∧ e.2 < t.n) →
      ∀ e ∈ (handleMovement p t).jkrG, e.1 < t.n ∧ e.2 < t.n) :=
  subStepIter_fields p p.moveSteps t

/-- The staggered vertex addition (`group ≠ 0`): with enough fuel it adds
exactly `remaining` vertices to the count and to both graphs, never
touches the proximity edges or the mark arrays, and every contact edge it
leaves behind joins live cells. -/
theorem staggerAdd_fields (p : MechParams) (hgp : p.group ≠ 0) (fuel : ℕ) :
    ∀ remaining : ℕ, remaining ≤ fuel → ∀ t : SimState,
      (∀ e ∈ t.jkrG, e.1 < t.n ∧ e.2 < t.n) →
      (staggerAdd p fuel remaining t).n = t.n + remaining ∧
      (staggerAdd p fuel remaining t).nbrVerts = t.nbrVerts + remaining ∧
      (staggerAdd p fuel remaining t).jkrVerts = t.jkrVerts + remaining ∧
      (staggerAdd p fuel remaining t).nbrG = t.nbrG ∧
      (staggerAdd p fuel remaining t).toDivide = t.toDivide ∧
      (staggerAdd p fuel remaining t).toRemove = t.toRemove ∧
      (∀ e ∈ (staggerAdd p fuel remaining t).jkrG,
        e.1 < t.n + remaining ∧ e.2 < t.n + remaining) := by
  induction fuel with
  | zero =>
    intro remaining hle t hb
    have h0 : remaining = 0 := Nat.le_zero.mp hle
    subst h0
    exact ⟨rfl, rfl, rfl, rfl, rfl, rfl, hb⟩
  | succ fuel ih =>
    intro remaining hle t hb
    by_cases h0 : remaining = 0
    · subst h0
      exact ⟨rfl, rfl, rfl, rfl, rfl, rfl, hb⟩
    · simp only [staggerAdd, if_neg h0]
      set K := if p.group ≤ remaining then p.group else remaining with hK
      have hK1 : 1 ≤ K := by
        rw [hK]
        split_ifs with h
        · omega
        · omega
      have hK2 : K ≤ remaining := by
        rw [hK]
        split_ifs with h
        · exact h
        · exact le_refl remaining
      set tB : SimState :=
        { t with
          nbrVerts := t.nbrVerts + K,
          jkrVerts := t.jkrVerts + K,
          n := t.n + K } with htB
      have htBn : tB.n = t.n + K := by rw [htB]
      have htBv1 : tB.nbrVerts = t.nbrVerts + K := by rw [htB]
      have htBv2 : tB.jkrVerts = t.jkrVerts + K := by rw [htB]
      have htBg : tB.nbrG = t.nbrG := by rw [htB]
      have htBd : tB.toDivide = t.toDivide := by rw [htB]
      have htBr : tB.toRemove = t.toRemove := by rw [htB]
      obtain ⟨hm1, hm2, hm3, hm4, hm5, hm6, hm7⟩ := handleMovement_fields p tB
      have hbB : ∀ e ∈ tB.jkrG, e.1 < tB.n ∧ e.2 < tB.n := by
        intro e he
        have := hb e he
        rw [htBn]
        omega
      have hmb := hm7 hbB
      obtain ⟨g1, g2, g3, g4, g5, g6, g7⟩ :=
        ih (remaining - K) (by omega) (handleMovement p tB) (by
          intro e he
          rw [hm1]
          exact hmb e he)
      refine ⟨?_, ?_, ?_, ?_, ?_, ?_, ?_⟩
      · rw [g1, hm1, htBn]
        omega
      · rw [g2, hm2, htBv1]
        omega
      · rw [g3, hm3, htBv2]
        omega
      · rw [g4, hm4, htBg]
      · rw [g5, hm5, htBd]
      · rw [g6, hm6, htBr]
      · intro e he
        have hg7 := g7 e he
        rw [hm1, htBn] at hg7
        constructor
        · have := hg7.1
          omega
        · have := hg7.2
          omega

/-- The vertex-addition stage of `update_queue` adds exactly `D` vertices
for every `group` setting, leaves the proximity graph and the mark arrays
alone, keeps every contact edge between live cells, and — when
`group = 0` — leaves the contact graph alone too. -/
theorem queueAdd_fields (p : MechParams) (D : ℕ) (t : SimState)
    (hb : ∀ e ∈ t.jkrG, e.1 < t.n ∧ e.2 < t.n) :
    (queueAdd p D t).n = t.n + D ∧
    (queueAdd p D t).nbrVerts = t.nbrVerts + D ∧
    (queueAdd p D t).jkrVerts = t.jkrVerts + D ∧
    (queueAdd p D t).nbrG = t.nbrG ∧
    (queueAdd p D t).toDivide = t.toDivide ∧
    (queueAdd p D t).toRemove = t.toRemove ∧
    (∀ e ∈ (queueAdd p D t).jkrG, e.1 < t.n + D ∧ e.2 < t.n + D) ∧
    (p.group = 0 → (queueAdd p D t).jkrG = t.jkrG) := by
  by_cases hg : p.group = 0
  · have hQ : queueAdd p D t =
        { t with
          nbrVerts := t.nbrVerts + D,
          jkrVerts := t.jkrVerts + D,
          n := t.n + D } := by
      unfold queueAdd
      rw [if_neg (by simp [hg])]
    rw [hQ]
    refine ⟨rfl, rfl, rfl, rfl, rfl, rfl, ?_, fun _ => rfl⟩
    intro e he
    have := hb e he
    omega
  · have hQ : queueAdd p D t = staggerAdd p D D t := by
      unfold queueAdd
      rw [if_pos hg]
    rw [hQ]
    obtain ⟨h1, h2, h3, h4, h5, h6, h7⟩ :=
      staggerAdd_fields p hg D D (le_refl D) t hb
    exact ⟨h1, h2, h3, h4, h5, h6, h7, fun hgg => absurd hgg hg⟩

/-- C6 (amended).  After `update_queue`, for every `group` setting (with
valid, duplicate-free mark arrays and aligned graphs): the cell count and
both graphs' vertex counts equal `N_old + |to_divide| − |to_remove|`; the
proximity graph holds exactly the renumbered surviving proximity edges
(`handle_movement` never edits it), with every endpoint below
`N_old − |to_remove|` — so no newly added vertex has an incident
proximity edge; every contact-edge endpoint is a valid compacted index
(below the new count); and both mark arrays are cleared.  When
`group = 0` (cells added all at once, so no `handle_movement` runs inside
the queue) the contact graph likewise holds exactly the renumbered
surviving contact edges with endpoints below `N_old − |to_remove|`, so
every newly added vertex has no incident edges at all.  With `group ≠ 0`
that last clause fails: the interleaved `handle_movement` can already
attach contact edges to new vertices — see the counterexample. -/
theorem update_queue_conservation (p : MechParams) (offs : ℕ → Vec3 ℝ)
    (s : SimState)
    (hnd : s.toRemove.Nodup)
    (hrem : ∀ r ∈ s.toRemove, r < s.n)
    (hnv : s.nbrVerts = s.n) (hjv : s.jkrVerts = s.n)
    (hne : ∀ e ∈ s.nbrG, e.1 < s.n ∧ e.2 < s.n)
    (hje : ∀ e ∈ s.jkrG, e.1 < s.n ∧ e.2 < s.n) :
    (updateQueue p offs s).n =
        s.n + s.toDivide.length - s.toRemove.length ∧
    (updateQueue p offs s).nbrVerts =
        s.n + s.toDivide.length - s.toRemove.length ∧
    (updateQueue p offs s).jkrVerts =
        s.n + s.toDivide.length - s.toRemove.length ∧
    (updateQueue p offs s).nbrG = deleteVerts s.toRemove s.nbrG ∧
    (∀ e ∈ (updateQueue p offs s).nbrG,
      e.1 < s.n - s.toRemove.length ∧ e.2 < s.n - s.toRemove.length) ∧
    (∀ e ∈ (updateQueue p offs s).jkrG,
      e.1 < s.n + s.toDivide.length - s.toRemove.length ∧
      e.2 < s.n + s.toDivide.length - s.toRemove.length) ∧
    (updateQueue p offs s).toDivide = [] ∧
    (updateQueue p offs s).toRemove = [] ∧
    (p.group = 0 →
      (updateQueue p offs s).jkrG = deleteVerts s.toRemove s.jkrG ∧
      ∀ e ∈ (updateQueue p offs s).jkrG,
        e.1 < s.n - s.toRemove.length ∧ e.2 < s.n - s.toRemove.length) := by
  obtain ⟨hn, hv1, hv2, hg1, hg2, -, -⟩ :=
    divideMove_fields p offs s.n s.toDivide (queueExtend s)
  have hqen : (queueExtend s).n = s.n := rfl
  have hqev1 : (queueExtend s).nbrVerts = s.nbrVerts := rfl
  have hqev2 : (queueExtend s).jkrVerts = s.jkrVerts := rfl
  have hqeg1 : (queueExtend s).nbrG = s.nbrG := rfl
  have hqeg2 : (queueExtend s).jkrG = s.jkrG := rfl
  rw [hqen] at hn
  rw [hqev1, hnv] at hv1
  rw [hqev2, hjv] at hv2
  rw [hqeg1] at hg1
  rw [hqeg2] at hg2
  have hbDiv : ∀ e ∈ (divideMove p offs s.n s.toDivide (queueExtend s)).jkrG,
      e.1 < (divideMove p offs s.n s.toDivide (queueExtend s)).n ∧
      e.2 < (divideMove p offs s.n s.toDivide (queueExtend s)).n := by
    rw [hg2, hn]
    exact hje
  obtain ⟨hA1, hA2, hA3, hA4, hA5, hA6, hA7, hA8⟩ :=
    queueAdd_fields p s.toDivide.length
      (divideMove p offs s.n s.toDivide (queueExtend s)) hbDiv
  rw [hn] at hA1
  rw [hv1] at hA2
  rw [hv2] at hA3
  rw [hg1] at hA4
  simp only [hn] at hA7
  rw [hg2] at hA8
  have hU : updateQueue p offs s =
      queueRemove s.toRemove
        (queueAdd p s.toDivide.length
          (divideMove p offs s.n s.toDivide (queueExtend s))) := rfl
  have hGn : (updateQueue p offs s).nbrG = deleteVerts s.toRemove s.nbrG := by
    rw [hU]
    show deleteVerts s.toRemove _ = _
    rw [hA4]
  have hrem' : ∀ r ∈ s.toRemove, r < s.n + s.toDivide.length := by
    intro r hr
    have := hrem r hr
    omega
  refine ⟨?_, ?_, ?_, hGn, ?_, ?_, ?_, ?_, ?_⟩
  · rw [hU]
    show (queueAdd p s.toDivide.length
      (divideMove p offs s.n s.toDivide (queueExtend s))).n -
        s.toRemove.length = _
    rw [hA1]
  · rw [hU]
    show (queueAdd p s.toDivide.length
      (divideMove p offs s.n s.toDivide (queueExtend s))).nbrVerts -
        s.toRemove.length = _
    rw [hA2]
  · rw [hU]
    show (queueAdd p s.toDivide.length
      (divideMove p offs s.n s.toDivide (queueExtend s))).jkrVerts -
        s.toRemove.length = _
    rw [hA3]
  · intro e he
    rw [hGn] at he
    obtain ⟨e', he', h1, h2, rfl⟩ := mem_deleteVerts.mp he
    exact ⟨renumber_lt_sub hnd hrem (hne e' he').1 h1,
      renumber_lt_sub hnd hrem (hne e' he').2 h2⟩
  · intro e he
    rw [hU] at he
    have he2 : e ∈ deleteVerts s.toRemove
        (queueAdd p s.toDivide.length
          (divideMove p offs s.n s.toDivide (queueExtend s))).jkrG := he
    obtain ⟨e', he', h1, h2, rfl⟩ := mem_deleteVerts.mp he2
    have hb' := hA7 e' he'
    exact ⟨renumber_lt_sub hnd hrem' hb'.1 h1,
      renumber_lt_sub hnd hrem' hb'.2 h2⟩
  · rw [hU]; rfl
  · rw [hU]; rfl
  · intro h0
    have hGj : (updateQueue p offs s).jkrG = deleteVerts s.toRemove s.jkrG := by
      rw [hU]
      show deleteVerts s.toRemove _ = _
      rw [hA8 h0]
    refine ⟨hGj, ?_⟩
    intro e he
    rw [hGj] at he
    obtain ⟨e', he', h1, h2, rfl⟩ := mem_deleteVerts.mp he
    exact ⟨renumber_lt_sub hnd hrem (hje e' he').1 h1,
      renumber_lt_sub hnd hrem (hje e' he').2 h2⟩

theorem update_queue_conservation_witness :
    ([] : List ℕ).Nodup ∧
      (updateQueue ⟨1, 1, 1, fun _ => 1, 1, 0⟩ (fun _ _ => 0)
        ⟨1, fun _ _ => 0, fun _ => 1, fun _ _ => 0, fun _ _ => 0, fun _ => 0,
          1, 1, ∅, ∅, [0], []⟩).n = 1 + 1 - 0 ∧
      (updateQueue ⟨1, 1, 1, fun _ => 1, 1, 0⟩ (fun _ _ => 0)
        ⟨1, fun _ _ => 0, fun _ => 1, fun _ _ => 0, fun _ _ => 0, fun _ => 0,
          1, 1, ∅, ∅, [0], []⟩).toDivide = [] :=
  ⟨List.nodup_nil,
    (update_queue_conservation ⟨1, 1, 1, fun _ => 1, 1, 0⟩ (fun _ _ => 0)
      ⟨1, fun _ _ => 0, fun _ => 1, fun _ _ => 0, fun _ _ => 0, fun _ => 0,
        1, 1, ∅, ∅, [0], []⟩ List.nodup_nil
      (fun r hr => absurd hr (List.not_mem_nil r)) rfl rfl
      (fun e he => absurd he (Finset.not_mem_empty e))
      (fun e he => absurd he (Finset.not_mem_empty e))).1,
    (update_queue_conservation ⟨1, 1, 1, fun _ => 1, 1, 0⟩ (fun _ _ => 0)
      ⟨1, fun _ _ => 0, fun _ => 1, fun _ _ => 0, fun _ _ => 0, fun _ => 0,
        1, 1, ∅, ∅, [0], []⟩ List.nodup_nil
      (fun r hr => absurd hr (List.not_mem_nil r)) rfl rfl
      (fun e he => absurd he (Finset.not_mem_empty e))
      (fun e he => absurd he (Finset.not_mem_empty e))).2.2.2.2.2.2.1⟩

theorem deleteVerts_nil (G : Finset (ℕ × ℕ)) : deleteVerts [] G = G := by
  unfold deleteVerts renumber
  ext e
  simp only [Finset.mem_image, Finset.mem_filter, List.not_mem_nil,
    not_false_iff, and_true, List.filter_nil, List.length_nil, Nat.sub_zero]
  constructor
  · rintro ⟨e', he', rfl⟩
    simpa using he'
  · intro he
    exact ⟨e, he, rfl⟩

/-- The parameters of the `group ≠ 0` counterexample run:
`max_radius = min_radius = 1`, one motion sub-step, `group = 1`. -/
noncomputable def queueCtrParams : MechParams :=
  ⟨1, 1, 1, fun _ => 1, 1, 1⟩

/-- The initial state of the counterexample run: one cell of radius 1 at
the origin, empty graphs, one division mark, no removal marks. -/
noncomputable def queueCtrState : SimState :=
  ⟨1, fun _ _ => 0, fun _ => 1, fun _ _ => 0, fun _ _ => 0, fun _ => 0,
    1, 1, ∅, ∅, [0], []⟩

/-- C6 counterexample.  With `group = 1` and one dividing cell,
`update_queue` runs `handle_movement` during the staggered addition;
`jkr_neighbors` then finds the mother/daughter pair overlapping and adds
the contact edge `(0, 1)`, which the force pass keeps (`d > −0.360562`).
After `update_queue` the newly added vertex `1` (population was
`N_old = 1`, no removals) therefore has an incident edge — refuting the
claim that every newly added vertex has no incident edges after
`update_queue`. -/
theorem update_queue_group_counterexample :
    (0, 1) ∈ (updateQueue queueCtrParams (fun _ _ => 0) queueCtrState).jkrG ∧
    (updateQueue queueCtrParams (fun _ _ => 0) queueCtrState).n = 2 ∧
    queueCtrState.n = 1 ∧ queueCtrState.toDivide.length = 1 ∧
    queueCtrState.toRemove.length = 0 := by
  have hL : ∀ ax : Fin 3,
      (divideMove queueCtrParams (fun _ _ => 0) 1 [0]
        (queueExtend queueCtrState)).loc 0 ax = 0 ∧
      (divideMove queueCtrParams (fun _ _ => 0) 1 [0]
        (queueExtend queueCtrState)).loc 1 ax = 0 := by
    intro ax
    constructor <;>
      simp [divideMove, List.range_succ, List.range_zero, queueExtend, extendArr,
        queueCtrParams, queueCtrState, Function.update]
  have hR :
      (divideMove queueCtrParams (fun _ _ => 0) 1 [0]
        (queueExtend queueCtrState)).radii 0 = 1 ∧
      (divideMove queueCtrParams (fun _ _ => 0) 1 [0]
        (queueExtend queueCtrState)).radii 1 = 1 := by
    constructor <;>
      simp [divideMove, List.range_succ, List.range_zero, queueExtend, extendArr,
        queueCtrParams, queueCtrState, Function.update]
  have hn1 : (divideMove queueCtrParams (fun _ _ => 0) 1 [0]
      (queueExtend queueCtrState)).n = 1 :=
    ((divideMove_fields queueCtrParams (fun _ _ => 0) 1 [0]
      (queueExtend queueCtrState)).1).trans rfl
  have hsq : sqDist
      ((divideMove queueCtrParams (fun _ _ => 0) 1 [0]
        (queueExtend queueCtrState)).loc 0)
      ((divideMove queueCtrParams (fun _ _ => 0) 1 [0]
        (queueExtend queueCtrState)).loc 1) = 0 := by
    unfold sqDist
    rw [(hL 0).1, (hL 0).2, (hL 1).1, (hL 1).2, (hL 2).1, (hL 2).2]
    norm_num
  have hsq' : sqDist
      ((divideMove queueCtrParams (fun _ _ => 0) 1 [0]
        (queueExtend queueCtrState)).loc 1)
      ((divideMove queueCtrParams (fun _ _ => 0) 1 [0]
        (queueExtend queueCtrState)).loc 0) = 0 := by
    unfold sqDist
    rw [(hL 0).1, (hL 0).2, (hL 1).1, (hL 1).2, (hL 2).1, (hL 2).2]
    norm_num
  have hdel : 0 < delta0 0.5 1000 0.000107 1 1 := by
    unfold delta0 eHat rHat
    apply mul_pos
    · apply Real.rpow_pos_of_pos
      apply div_pos
      · exact mul_pos Real.pi_pos (by norm_num)
      · rw [inv_pos]
        norm_num
    · apply Real.rpow_pos_of_pos
      rw [inv_pos]
      norm_num
  have hdpos : -0.360562 < dNondim 0.5 1000 0.000107
      (divideMove queueCtrParams (fun _ _ => 0) 1 [0]
        (queueExtend queueCtrState)).loc
      (divideMove queueCtrParams (fun _ _ => 0) 1 [0]
        (queueExtend queueCtrState)).radii 0 1 := by
    unfold dNondim normDist
    rw [hR.1, hR.2, hsq, Real.sqrt_zero]
    have h2 : (0:ℝ) < (1 + 1 - 0) / delta0 0.5 1000 0.000107 1 1 :=
      div_pos (by norm_num) hdel
    linarith
  have hP01 : jkrOverlapPred
      (divideMove queueCtrParams (fun _ _ => 0) 1 [0]
        (queueExtend queueCtrState)).loc
      (divideMove queueCtrParams (fun _ _ => 0) 1 [0]
        (queueExtend queueCtrState)).radii 0 1 := by
    unfold jkrOverlapPred normDist
    rw [hR.1, hR.2, hsq', Real.sqrt_zero]
    norm_num
  have hE : (0, 1) ∈ jkrSearchEdges queueCtrParams.maxRadius
      { divideMove queueCtrParams (fun _ _ => 0) 1 [0]
          (queueExtend queueCtrState) with
        nbrVerts := (divideMove queueCtrParams (fun _ _ => 0) 1 [0]
          (queueExtend queueCtrState)).nbrVerts + 1,
        jkrVerts := (divideMove queueCtrParams (fun _ _ => 0) 1 [0]
          (queueExtend queueCtrState)).jkrVerts + 1,
        n := (divideMove queueCtrParams (fun _ _ => 0) 1 [0]
          (queueExtend queueCtrState)).n + 1 } := by
    unfold jkrSearchEdges
    apply mem_fullEdges_of
    · show (0:ℝ) < 2 * queueCtrParams.maxRadius
      show (0:ℝ) < 2 * 1
      norm_num
    · norm_num
    · show 1 < (divideMove queueCtrParams (fun _ _ => 0) 1 [0]
        (queueExtend queueCtrState)).n + 1
      omega
    · exact hP01
    · show sqDist _ _ ≤ (2 * queueCtrParams.maxRadius) ^ 2
      rw [hsq]
      show (0:ℝ) ≤ (2 * 1) ^ 2
      norm_num
  refine ⟨?_, ?_, rfl, rfl, rfl⟩
  · have hU : (updateQueue queueCtrParams (fun _ _ => 0) queueCtrState).jkrG =
        deleteVerts []
          (queueAdd queueCtrParams 1
            (divideMove queueCtrParams (fun _ _ => 0) 1 [0]
              (queueExtend queueCtrState))).jkrG := rfl
    rw [hU, deleteVerts_nil]
    have hqaG : (queueAdd queueCtrParams 1
        (divideMove queueCtrParams (fun _ _ => 0) 1 [0]
          (queueExtend queueCtrState))).jkrG =
        ((divideMove queueCtrParams (fun _ _ => 0) 1 [0]
            (queueExtend queueCtrState)).jkrG ∪
          (jkrSearchEdges queueCtrParams.maxRadius
            { divideMove queueCtrParams (fun _ _ => 0) 1 [0]
                (queueExtend queueCtrState) with
              nbrVerts := (divideMove queueCtrParams (fun _ _ => 0) 1 [0]
                (queueExtend queueCtrState)).nbrVerts + 1,
              jkrVerts := (divideMove queueCtrParams (fun _ _ => 0) 1 [0]
                (queueExtend queueCtrState)).jkrVerts + 1,
              n := (divideMove queueCtrParams (fun _ _ => 0) 1 [0]
                (queueExtend queueCtrState)).n + 1 }).toFinset).filter
          (fun e => -0.360562 < dNondim 0.5 1000 0.000107
            (divideMove queueCtrParams (fun _ _ => 0) 1 [0]
              (queueExtend queueCtrState)).loc
            (divideMove queueCtrParams (fun _ _ => 0) 1 [0]
              (queueExtend queueCtrState)).radii e.1 e.2) := rfl
    rw [hqaG]
    exact Finset.mem_filter.mpr
      ⟨Finset.mem_union_right _ (List.mem_toFinset.mpr hE), hdpos⟩
  · have hUn : (updateQueue queueCtrParams (fun _ _ => 0) queueCtrState).n =
        (divideMove queueCtrParams (fun _ _ => 0) 1 [0]
          (queueExtend queueCtrState)).n + 1 - 0 := rfl
    rw [hUn, hn1]

end StemCell
